import Mathlib

/-!
Verification development for the supersaiyan SQL-builder core: the
expression/condition value model, the shape-sniffing JSON decoder
(`unmarshalCondition` / `unmarshalExpression` / `unmarshalValue`), the dynamic
value resolver (`handleAny`) and the query-builder operations (`New`, `Select`,
`Count`, `Edit`, `Delete`, `applyLimitOffset`).

The embedding mirrors the Go source.  Go's dynamic `any` universe is modelled
by the inductive `GoVal`; the expression objects produced at the goqu library
boundary are modelled symbolically by the inductive `GoquExpr` (goqu's final
SQL text rendering is the external compiler boundary and is out of scope, as
the repository's own specification states; what the core hands to that
boundary is recorded structurally).  Pre-built backend expression objects that
merely pass through `handleAny` are modelled as opaque atoms.
-/

namespace SuperSaiyan

/-- Boolean comparison operators, mirroring the goqu `exp.BooleanOperation`
enumeration as used by the source (`BoolOp.expression` handles all 18;
`unknownOp` stands for any out-of-range value of the int-typed Go enum,
which every `switch` in the source sends to its `default` branch). -/
inductive BoolOperator where
  | eqOp | neqOp | isOp | isNotOp
  | gtOp | gteOp | ltOp | lteOp
  | inOp | notInOp
  | likeOp | notLikeOp | iLikeOp | notILikeOp
  | regexpLikeOp | regexpNotLikeOp | regexpILikeOp | regexpNotILikeOp
  | unknownOp
  deriving DecidableEq, Repr

/-- Range operators, mirroring goqu `exp.RangeOperation`. -/
inductive RangeOperator where
  | betweenOp | notBetweenOp
  deriving DecidableEq, Repr

/-- Logical group operators, mirroring goqu `exp.ExpressionListType`. -/
inductive GroupOperator where
  | andType | orType
  deriving DecidableEq, Repr

/-- Join types used by the source (`Relation.join` distinguishes inner, left,
right and falls back to a plain join for anything else; `crossJoin` stands in
for the default branch). -/
inductive JoinTypeV where
  | innerJoin | leftJoin | rightJoin | crossJoin
  deriving DecidableEq, Repr

/-- Sort directions, mirroring goqu `exp.SortDirection`. -/
inductive SortDir where
  | ascDir | descDir
  deriving DecidableEq, Repr

/-- `Sort` struct from `expression_sort.go` (name, tableAlias, order). -/
structure SortV where
  name : String
  tableAlias : String
  order : SortDir
  deriving DecidableEq, Repr

/-- The dynamic (`any`) value universe the Go core manipulates: JSON-style
scalars, maps and slices, pointers, the typed expression/condition node
structs, nested sub-query builders (fields inlined), join relations, and
opaque pre-built backend expressions (`vatom`).  `vnull` is Go's nil
interface value; `vptr .none` is a typed nil pointer. -/
inductive GoVal where
  | vnull
  | vbool (b : Bool)
  | vint (n : Int)
  | vstr (s : String)
  | vlist (xs : List GoVal)
  | vmap (kvs : List (String × GoVal))
  | vptr (p : Option GoVal)
  | vfield (name tableAlias fieldAlias : String) (fexp : Option GoVal)
  | vliteral (value : String) (args : List GoVal)
  | vcase (conds : List (GoVal × GoVal)) (els : Option GoVal)
  | vcoalesce (fields : List GoVal) (dflt : Option GoVal)
  | vboolop (op : BoolOperator) (fieldName tableAlias : String) (value : GoVal)
  | vrangeop (op : RangeOperator) (fieldName tableAlias : String) (start stop : GoVal)
  | vwheregroup (op : GroupOperator) (conds : List GoVal)
  | vbuilder (dialect tableName tableAlias : String)
      (relations fields wheres : List GoVal) (sorts : List SortV)
      (groupBy : List GoVal) (limit offset : Nat)
  | vrelation (jt : JoinTypeV) (tableName tableAlias : String)
      (subRelations onConds : List GoVal)
  | vatom (n : Nat)

/-- Symbolic goqu expression AST: what the core hands to the backend.
`nilE` is a nil `exp.Expression` interface value; `lit` is `goqu.L`;
`val` is `goqu.V`; `column t n` is `goqu.C(n).Table(t)`; `dataset` is a
`goqu.SelectDataset` (datasets are themselves expressions, usable as
sub-queries); `atom` is an opaque pre-built backend expression passed
through unchanged. -/
inductive GoquExpr where
  | nilE
  | lit (template : String) (args : List GoquExpr)
  | val (v : GoVal)
  | column (table name : String)
  | boolE (op : BoolOperator) (lhs rhs : GoquExpr)
  | rangeE (op : RangeOperator) (target lo hi : GoquExpr)
  | andE (es : List GoquExpr)
  | orE (es : List GoquExpr)
  | caseE (arms : List (GoquExpr × GoquExpr)) (els : Option GoquExpr)
  | coalesceE (args : List GoquExpr)
  | aliased (e : GoquExpr) (a : String)
  | ordered (e : GoquExpr) (dir : SortDir)
  | joinC (jt : JoinTypeV) (tableName tableAlias : String) (onConds : List GoquExpr)
  | dataset (dialect tableName tableAlias : String)
      (joins selects wheres orders groups : List GoquExpr)
      (lim off : Option Nat) (prepared : Bool)
  | countStar
  | atom (n : Nat)

/-- `boolOpToString` from the source: note that the four Regexp operators are
not covered and fall to the default `"eq"`. -/
def boolOpToString : BoolOperator → String
  | .eqOp => "eq"
  | .neqOp => "neq"
  | .isOp => "is"
  | .isNotOp => "isNot"
  | .gtOp => "gt"
  | .gteOp => "gte"
  | .ltOp => "lt"
  | .lteOp => "lte"
  | .inOp => "in"
  | .notInOp => "notIn"
  | .likeOp => "like"
  | .notLikeOp => "notLike"
  | .iLikeOp => "iLike"
  | .notILikeOp => "notILike"
  | _ => "eq"

/-- `stringToBoolOp` from the source (unknown strings default to eq). -/
def stringToBoolOp (s : String) : BoolOperator :=
  if s = "eq" then .eqOp
  else if s = "neq" then .neqOp
  else if s = "is" then .isOp
  else if s = "isNot" then .isNotOp
  else if s = "gt" then .gtOp
  else if s = "gte" then .gteOp
  else if s = "lt" then .ltOp
  else if s = "lte" then .lteOp
  else if s = "in" then .inOp
  else if s = "notIn" then .notInOp
  else if s = "like" then .likeOp
  else if s = "notLike" then .notLikeOp
  else if s = "iLike" then .iLikeOp
  else if s = "notILike" then .notILikeOp
  else .eqOp

/-- `rangeOpToString` from the source. -/
def rangeOpToString : RangeOperator → String
  | .betweenOp => "between"
  | .notBetweenOp => "notBetween"

/-- `stringToRangeOp` from the source (default between). -/
def stringToRangeOp (s : String) : RangeOperator :=
  if s = "between" then .betweenOp
  else if s = "notBetween" then .notBetweenOp
  else .betweenOp

/-- `expressionListTypeToString` from the source (default AND). -/
def expressionListTypeToString : GroupOperator → String
  | .andType => "AND"
  | .orType => "OR"

/-- `stringToExpressionListType` from the source (default AND). -/
def stringToExpressionListType (s : String) : GroupOperator :=
  if s = "OR" then .orType
  else if s = "AND" then .andType
  else .andType

/-- A `handleAnyOption` value as passed at the source's call sites: the only
option constructor is `withAlias`, so a non-nil option function is `some
alias`; `none` is a nil function value (which Go panics on when invoked).
`Field.expression` really does pass such a nil option when the field has an
`Exp` but neither `FieldAlias` nor `Name`. -/
abbrev HandleAnyOption := Option String

/-- Folds the option list exactly as `handleAny`'s loop does (each
`withAlias` overwrites `options.alias`); invoking a nil option function is a
runtime panic, modelled as `none`. The accumulator starts at `""`
(`handleAnyOptions` zero value). -/
def processOptions : List HandleAnyOption → String → Option String
  | [], acc => some acc
  | none :: _, _ => none
  | some a :: rest, _ => processOptions rest a

/-- `sortDirectionToString` from `expression_sort.go` (default ASC). -/
def sortDirectionToString : SortDir → String
  | .descDir => "DESC"
  | .ascDir => "ASC"

/-- `stringToSortDirection` from `expression_sort.go` (default ASC). -/
def stringToSortDirection (s : String) : SortDir :=
  if s = "DESC" then .descDir
  else if s = "ASC" then .ascDir
  else .ascDir

/-- `Sort.expression` from `expression_sort.go`:
`goqu.C(s.Name).Table(s.TableAlias).Desc()` for descending, `.Asc()`
otherwise. -/
def sortExpression (s : SortV) : GoquExpr :=
  match s.order with
  | .descDir => .ordered (.column s.tableAlias s.name) .descDir
  | _ => .ordered (.column s.tableAlias s.name) .ascDir

/-- One entry of `mainSelect`'s GROUP BY loop: an identifier expression when
both name and table alias are set, the bare name string when only the name is
set, the field alias string for an aliased expression field, and a nil `any`
otherwise (plain strings handed to goqu are recorded as `val` of the string;
the `Exp` of the field is not consulted, exactly as in the source). -/
def groupItem : GoVal → GoquExpr
  | .vfield n ta fa _ =>
      if n ≠ "" then
        (if ta ≠ "" then .column ta n else .val (.vstr n))
      else if fa ≠ "" then .val (.vstr fa)
      else .nilE
  | _ => .nilE

mutual

/-- `handleAny` from `helpers.go`.  The nil check precedes option
processing; a non-nil pointer is dereferenced once and the pointee continues
through the remaining type tests (the pointer test is not re-run).  `none`
models a Go panic (only reachable through a nil option function). -/
def handleAny (a : GoVal) (opts : List HandleAnyOption) : Option GoquExpr :=
  match a, processOptions opts "" with
  | .vnull, _ => some (.lit "NULL" [])
  | _, none => none
  | .vptr none, some _ => some (.lit "NULL" [])
  | .vptr (some v), some al => typeTests v al
  | v, some al => typeTests v al
termination_by 8 * (sizeOf a) + 3
decreasing_by
  all_goals simp_wf
  all_goals omega

/-- The chain of type tests in `handleAny` after the nil/pointer handling:
sub-query builder, `Field`, `BoolOp`, `WhereGroup`, `RangeOp`, `Literal`,
`Case`, `Coalesce`, pre-built backend expression, slice, and the bound-value
fallback `goqu.V(a)`. -/
def typeTests (a : GoVal) (al : String) : Option GoquExpr :=
  match a with
  | .vbuilder d tn ta rels fs ws ss gs _ _ => mainSelectCore d tn ta rels fs ws ss gs
  | .vfield n ta fa fexp => fieldExpression n ta fa fexp
  | .vboolop op fn ta v => boolOpExpression op fn ta v
  | .vwheregroup op cs => whereGroupExpression op cs
  | .vrangeop op fn ta s e => rangeOpExpression op fn ta s e
  | .vliteral v args =>
      (literalExpression v args).map (fun e => if al ≠ "" then .aliased e al else e)
  | .vcase arms els =>
      (caseExpression arms els).map (fun e => if al ≠ "" then .aliased e al else e)
  | .vcoalesce fs d =>
      (coalesceExpression fs d).map (fun e => if al ≠ "" then .aliased e al else e)
  | .vatom n => some (.atom n)
  | .vlist xs =>
      some (if xs.isEmpty then .lit "(?)" [.val (.vlist [])] else .val (.vlist xs))
  | v => some (.val v)
termination_by 8 * (sizeOf a) + 2
decreasing_by
  all_goals simp_wf
  all_goals omega

/-- `Field.expression` from the source.  With an `Exp` present it builds one
`handleAnyOption` — `withAlias(FieldAlias)` if aliased, else
`withAlias(Name)` if the name is non-empty, else a nil option function —
and calls `handleAny(f.Exp, opt)`.  Without an `Exp` it is the aliased or
plain identifier expression. -/
def fieldExpression (n ta fa : String) (fexp : Option GoVal) : Option GoquExpr :=
  match fexp with
  | some e =>
      let opt : HandleAnyOption :=
        if fa ≠ "" then some fa else if n ≠ "" then some n else none
      handleAny e [opt]
  | none =>
      some (if fa ≠ "" then .aliased (.column ta n) fa else .column ta n)
termination_by 8 * (sizeOf fexp) + 4
decreasing_by
  all_goals simp_wf
  all_goals omega

/-- `BoolOp.expression` from the source: resolves the value through
`handleAny` and applies the operator to the column identifier; an
out-of-range operator returns a nil expression without resolving the value
(`default` branch). -/
def boolOpExpression (op : BoolOperator) (fn ta : String) (v : GoVal) :
    Option GoquExpr :=
  match op with
  | .unknownOp => some .nilE
  | _ => (handleAny v []).map (fun hv => .boolE op (.column ta fn) hv)
termination_by 8 * (sizeOf v) + 4
decreasing_by
  all_goals simp_wf
  all_goals omega

/-- `RangeOp.expression` from the source: resolves start and end through
`handleAny`, builds `goqu.Range`, and applies `NotBetween` or (default)
`Between` to the column identifier. -/
def rangeOpExpression (op : RangeOperator) (fn ta : String) (s e : GoVal) :
    Option GoquExpr := do
  let hs ← handleAny s []
  let he ← handleAny e []
  pure (.rangeE op (.column ta fn) hs he)
termination_by 8 * (sizeOf s + sizeOf e) + 4
decreasing_by
  all_goals simp_wf
  all_goals omega

/-- `WhereGroup.expression` from the source: compiles children through the
condition switch, skips those that yield a nil expression, returns a nil
expression when none remain, and otherwise combines with `goqu.Or` /
(default) `goqu.And`. -/
def whereGroupExpression (op : GroupOperator) (cs : List GoVal) :
    Option GoquExpr := do
  let es ← collectCondExprs cs
  if es.isEmpty then pure .nilE
  else
    match op with
    | .orType => pure (.orE es)
    | _ => pure (.andE es)
termination_by 8 * (sizeOf cs) + 4
decreasing_by
  all_goals simp_wf
  all_goals omega

/-- The child loop shared by `WhereGroup.expression` and `Relation.join`'s
ON-condition loop: `BoolOp`, `RangeOp` and `WhereGroup` children compile via
their own `expression` method, every other value leaves the expression nil,
and nil expressions are not appended. -/
def collectCondExprs (cs : List GoVal) : Option (List GoquExpr) :=
  match cs with
  | [] => some []
  | c :: rest => do
      let e ← condExprOf c
      let es ← collectCondExprs rest
      match e with
      | .nilE => pure es
      | _ => pure (e :: es)
termination_by 8 * (sizeOf cs) + 3
decreasing_by
  all_goals simp_wf
  all_goals omega

/-- The type switch on a single child condition (`case BoolOp / RangeOp /
WhereGroup`, anything else leaves `expr` nil). -/
def condExprOf (c : GoVal) : Option GoquExpr :=
  match c with
  | .vboolop op fn ta v => boolOpExpression op fn ta v
  | .vrangeop op fn ta s e => rangeOpExpression op fn ta s e
  | .vwheregroup op cs => whereGroupExpression op cs
  | _ => some .nilE
termination_by 8 * (sizeOf c) + 2
decreasing_by
  all_goals simp_wf
  all_goals omega

/-- `Literal.expression` from the source: every positional argument resolved
through `handleAny`, substituted into `goqu.L(value, args...)`. -/
def literalExpression (v : String) (args : List GoVal) : Option GoquExpr :=
  (handleAnyList args).map (fun es => .lit v es)
termination_by 8 * (sizeOf args) + 4
decreasing_by
  all_goals simp_wf
  all_goals omega

/-- The argument/wheres loops that apply `handleAny` with no options to each
element. -/
def handleAnyList (xs : List GoVal) : Option (List GoquExpr) :=
  match xs with
  | [] => some []
  | a :: rest => do
      pure ((← handleAny a []) :: (← handleAnyList rest))
termination_by 8 * (sizeOf xs) + 3
decreasing_by
  all_goals simp_wf
  all_goals omega

/-- `Case.expression` from the source: each arm's `when` and `then` resolved
through `handleAny`; the `else` resolved only when non-nil. -/
def caseExpression (arms : List (GoVal × GoVal)) (els : Option GoVal) :
    Option GoquExpr := do
  let as ← caseArms arms
  match els with
  | some e => pure (.caseE as (some (← handleAny e [])))
  | none => pure (.caseE as none)
termination_by 8 * (sizeOf arms + sizeOf els) + 4
decreasing_by
  all_goals simp_wf
  all_goals omega

/-- The WHEN/THEN loop of `Case.expression`. -/
def caseArms (arms : List (GoVal × GoVal)) :
    Option (List (GoquExpr × GoquExpr)) :=
  match arms with
  | [] => some []
  | (w, t) :: rest => do
      pure ((← handleAny w [], ← handleAny t []) :: (← caseArms rest))
termination_by 8 * (sizeOf arms) + 3
decreasing_by
  all_goals simp_wf
  all_goals omega

/-- `Coalesce.expression` from the source: each field compiled via
`Field.expression`, the default value (when non-nil) resolved through
`handleAny`, all passed to `goqu.COALESCE`. -/
def coalesceExpression (fs : List GoVal) (d : Option GoVal) :
    Option GoquExpr := do
  let fes ← fieldExprList fs
  match d with
  | some dv => pure (.coalesceE (fes ++ [← handleAny dv []]))
  | none => pure (.coalesceE fes)
termination_by 8 * (sizeOf fs + sizeOf d) + 4
decreasing_by
  all_goals simp_wf
  all_goals omega

/-- A loop of `Field.expression` calls over a statically typed `[]Field`
(`mainSelect`'s field selection and `Coalesce.expression`'s field loop); a
non-field value cannot occur in Go and is mapped to a nil expression. -/
def fieldExprList (fs : List GoVal) : Option (List GoquExpr) :=
  match fs with
  | [] => some []
  | f :: rest => do
      pure ((← fieldExprOfVal f) :: (← fieldExprList rest))
termination_by 8 * (sizeOf fs) + 3
decreasing_by
  all_goals simp_wf
  all_goals omega

/-- `Field.expression` on a dynamically stored field value. -/
def fieldExprOfVal (f : GoVal) : Option GoquExpr :=
  match f with
  | .vfield n ta fa e => fieldExpression n ta fa e
  | _ => some .nilE
termination_by 8 * (sizeOf f) + 2
decreasing_by
  all_goals simp_wf
  all_goals omega

/-- `SQLBuilder.mainSelect` from the source: the base SELECT dataset with
joins, field selection, WHERE conditions (one `handleAny` per entry, nil
expressions included, exactly as handed to `ds.Where`), sorting and grouping.
`mainSelect` does not apply limit/offset (that is `applyLimitOffset`). -/
def mainSelectCore (d tn ta : String) (rels fs ws : List GoVal)
    (ss : List SortV) (gs : List GoVal) : Option GoquExpr := do
  let joins ← relationJoins rels
  let selects ← fieldExprList fs
  let wheres ← handleAnyList ws
  let orders := ss.map sortExpression
  let groups := gs.map groupItem
  pure (.dataset d tn ta joins selects wheres orders groups none none false)
termination_by 8 * (sizeOf rels + sizeOf fs + sizeOf ws) + 4
decreasing_by
  all_goals simp_wf
  all_goals omega

/-- The `for _, rel := range …` join loops: each relation contributes its own
join clause followed by its nested relations' clauses, in order
(`Relation.join` recursion flattened into the dataset's join list). -/
def relationJoins (rels : List GoVal) : Option (List GoquExpr) :=
  match rels with
  | [] => some []
  | r :: rest => do
      pure ((← relationJoin r) ++ (← relationJoins rest))
termination_by 8 * (sizeOf rels) + 3
decreasing_by
  all_goals simp_wf
  all_goals omega

/-- `Relation.join` from `table.go`: builds the ON-condition list with the
same skip-nil child loop as `WhereGroup.expression` (the `Condition`
interface dispatch and the fallback type switch cover the same three
types), appends the join clause for its own table and then recursively the
nested relations' clauses.  A non-relation value cannot occur in Go. -/
def relationJoin (r : GoVal) : Option (List GoquExpr) :=
  match r with
  | .vrelation jt tn ta subs ons => do
      let onEs ← collectCondExprs ons
      let subJs ← relationJoins subs
      pure (.joinC jt tn ta onEs :: subJs)
  | _ => some []
termination_by 8 * (sizeOf r) + 4
decreasing_by
  all_goals simp_wf
  all_goals omega

end

/-- `Table` struct (name, alias, relations); relation entries are
`vrelation` values. -/
structure TableV where
  name : String
  tAlias : String
  relations : List GoVal

/-- The `SQLBuilder` struct from the source: dialect, fields, table,
wheres (a `[]any` expected to hold condition values), sorts, group-by
fields, and the unexported limit/offset (`New` starts limit at 10). -/
structure SQLBuilder where
  Dialect : String
  Fields : List GoVal
  Table : TableV
  Wheres : List GoVal
  Sorts : List SortV
  GroupBy : List GoVal
  limit : Nat
  offset : Nat

/-- `ErrMissingWhereCondition` and friends. -/
inductive BuildErr where
  | missingWhereCondition
  deriving DecidableEq, Repr

/-- The result of `Edit` / `Delete`: either the error triple the source
returns (`"", nil, err`) or the mutation dataset handed to goqu's `ToSQL`
(dialect, bare table name — no alias —, WHERE expressions, the SET record
for updates, and the prepared flag). -/
inductive MutationResult where
  | failure (query : String) (args : Option (List GoVal)) (e : BuildErr)
  | updateQuery (dialect table : String) (wheres : List GoquExpr)
      (record : List (String × GoVal)) (prepared : Bool)
  | deleteQuery (dialect table : String) (wheres : List GoquExpr)
      (prepared : Bool)

/-- `New` from the source: dialect, table name/alias, and a default limit
of 10 (all other fields are zero values). -/
def New (dialect tableName tableAlias : String) : SQLBuilder :=
  { Dialect := dialect
    Fields := []
    Table := ⟨tableName, tableAlias, []⟩
    Wheres := []
    Sorts := []
    GroupBy := []
    limit := 10
    offset := 0 }

/-- `SQLBuilder.Limit`. -/
def SQLBuilder.Limit (qb : SQLBuilder) (n : Nat) : SQLBuilder :=
  { qb with limit := n }

/-- `SQLBuilder.Offset`. -/
def SQLBuilder.Offset (qb : SQLBuilder) (n : Nat) : SQLBuilder :=
  { qb with offset := n }

/-- `SQLBuilder.Where`: appends conditions to `Wheres`. -/
def SQLBuilder.Where (qb : SQLBuilder) (conditions : List GoVal) : SQLBuilder :=
  { qb with Wheres := qb.Wheres ++ conditions }

/-- `SQLBuilder.mainSelect` on the builder struct. -/
def SQLBuilder.mainSelect (qb : SQLBuilder) : Option GoquExpr :=
  mainSelectCore qb.Dialect qb.Table.name qb.Table.tAlias qb.Table.relations
    qb.Fields qb.Wheres qb.Sorts qb.GroupBy

/-- `SQLBuilder.applyLimitOffset` from the source: `ds.Limit` only when the
builder's limit is positive, `ds.Offset` only when the offset is positive;
a zero value leaves the dataset's clause absent. -/
def SQLBuilder.applyLimitOffset (qb : SQLBuilder) (ds : GoquExpr) : GoquExpr :=
  match ds with
  | .dataset d tn ta j s w o g lim off p =>
      let lim' := if qb.limit > 0 then some qb.limit else lim
      let off' := if qb.offset > 0 then some qb.offset else off
      .dataset d tn ta j s w o g lim' off' p
  | e => e

/-- `ds.Prepared(true)` on a dataset. -/
def dsPrepared (ds : GoquExpr) (b : Bool) : GoquExpr :=
  match ds with
  | .dataset d tn ta j s w o g lim off _ =>
      .dataset d tn ta j s w o g lim off b
  | e => e

/-- `ds.Select(…)` replacing the selected columns of a dataset. -/
def dsSelect (ds : GoquExpr) (sel : List GoquExpr) : GoquExpr :=
  match ds with
  | .dataset d tn ta j _ w o g lim off p =>
      .dataset d tn ta j sel w o g lim off p
  | e => e

/-- The LIMIT clause of a dataset (`none` when absent). -/
def dsLimit : GoquExpr → Option Nat
  | .dataset _ _ _ _ _ _ _ _ lim _ _ => lim
  | _ => none

/-- The OFFSET clause of a dataset (`none` when absent). -/
def dsOffset : GoquExpr → Option Nat
  | .dataset _ _ _ _ _ _ _ _ _ off _ => off
  | _ => none

/-- The prepared flag of a dataset. -/
def dsPreparedFlag : GoquExpr → Bool
  | .dataset _ _ _ _ _ _ _ _ _ _ p => p
  | _ => false

/-- `SQLBuilder.Select` from the source: `mainSelect`, then
`applyLimitOffset`, then `Prepared(true)`, then `ToSQL` at the goqu
boundary (the dataset handed to it is returned). -/
def SQLBuilder.Select (qb : SQLBuilder) : Option GoquExpr := do
  let ds ← qb.mainSelect
  pure (dsPrepared (qb.applyLimitOffset ds) true)

/-- `SQLBuilder.Count` from the source: like `Select` but the final dataset
selects `COUNT(*)`. -/
def SQLBuilder.Count (qb : SQLBuilder) : Option GoquExpr := do
  let ds ← qb.mainSelect
  pure (dsSelect (dsPrepared (qb.applyLimitOffset ds) true) [.countStar])

/-- `SQLBuilder.Edit` from the source: with an empty `Wheres` list it
returns `("", nil, ErrMissingWhereCondition)` before building anything;
otherwise it builds the UPDATE dataset with one `handleAny` per where
entry. -/
def SQLBuilder.Edit (qb : SQLBuilder) (entry : List (String × GoVal)) :
    Option MutationResult :=
  if qb.Wheres.length = 0 then
    some (.failure "" none .missingWhereCondition)
  else do
    let es ← handleAnyList qb.Wheres
    pure (.updateQuery qb.Dialect qb.Table.name es entry true)

/-- `SQLBuilder.Delete` from the source: same guard as `Edit`, then the
DELETE dataset. -/
def SQLBuilder.Delete (qb : SQLBuilder) : Option MutationResult :=
  if qb.Wheres.length = 0 then
    some (.failure "" none .missingWhereCondition)
  else do
    let es ← handleAnyList qb.Wheres
    pure (.deleteQuery qb.Dialect qb.Table.name es true)

/-- A parsed JSON document (what `json.RawMessage` bytes denote).  Numbers
are modelled as integers: the development ignores the float64-vs-int
representation difference, exactly the incidental difference the
round-trip property is stated up to. -/
inductive Json where
  | null
  | bool (b : Bool)
  | num (n : Int)
  | str (s : String)
  | arr (xs : List Json)
  | obj (kvs : List (String × Json))

/-- Key lookup in a decoded JSON object (Go's `map[string]json.RawMessage`
has unique keys; first match). -/
def lookupKey (kvs : List (String × Json)) (k : String) : Option Json :=
  match kvs with
  | [] => none
  | (k', v) :: rest => if k' = k then some v else lookupKey rest k

/-- Key presence test (`_, hasK := typeDetector["k"]`). -/
def hasKey (kvs : List (String × Json)) (k : String) : Bool :=
  (lookupKey kvs k).isSome

/-- Decode errors.  `unknownExpression` / `unknownCondition` are the
source's `fmt.Errorf("unknown expression type")` / `("unknown condition
type")`; `jsonType` is a `json.Unmarshal` type-mismatch error (e.g.
unmarshalling a number into a map or a string field); `wrapped` and
`wrapCtx` are the source's `fmt.Errorf("…: %w", err)` wrappers. -/
inductive DecodeErr where
  | unknownExpression
  | unknownCondition
  | jsonType (context : String)
  | wrapped (context : String) (idx : Nat) (e : DecodeErr)
  | wrapCtx (context : String) (e : DecodeErr)
  deriving DecidableEq, Repr

mutual

/-- Plain `json.Unmarshal` into `any`: null→nil, numbers→float64
(modelled as `vint`), arrays→`[]any`, objects→`map[string]any`. -/
def simpleDecode : Json → GoVal
  | .null => .vnull
  | .bool b => .vbool b
  | .num n => .vint n
  | .str s => .vstr s
  | .arr xs => .vlist (simpleDecodeList xs)
  | .obj kvs => .vmap (simpleDecodeKVs kvs)

/-- Element loop of `simpleDecode` on arrays. -/
def simpleDecodeList : List Json → List GoVal
  | [] => []
  | j :: rest => simpleDecode j :: simpleDecodeList rest

/-- Entry loop of `simpleDecode` on objects. -/
def simpleDecodeKVs : List (String × Json) → List (String × GoVal)
  | [] => []
  | (k, j) :: rest => (k, simpleDecode j) :: simpleDecodeKVs rest

end

/-- Decoding a JSON value into a Go `string` struct field: absent or null
leaves the zero value `""`; a string decodes; anything else is a type
error. -/
def getStrField (kvs : List (String × Json)) (k : String) :
    Except DecodeErr String :=
  match lookupKey kvs k with
  | none => .ok ""
  | some .null => .ok ""
  | some (.str s) => .ok s
  | some _ => .error (.jsonType k)

/-- `json.Unmarshal(conditionsRaw, &[]map[string]any)`: null gives a nil
slice; an array succeeds only when every element is an object or null
(null elements become nil maps). -/
def objList : List Json → Option (List (List (String × Json)))
  | [] => some []
  | .obj kvs :: rest => (objList rest).map (kvs :: ·)
  | .null :: rest => (objList rest).map ([] :: ·)
  | _ => none

/-- The `conditions` raw value viewed as a `[]map[string]any` when that
unmarshal succeeds. -/
def asObjList : Json → Option (List (List (String × Json)))
  | .null => some []
  | .arr xs => objList xs
  | _ => none

/-- The Case detection test of `unmarshalExpression`: key `conditions`
present, unmarshals as a non-empty `[]map[string]any`, and the first entry
has key `when`. -/
def caseTrigger (kvs : List (String × Json)) : Bool :=
  match lookupKey kvs "conditions" with
  | some cj =>
      match asObjList cj with
      | some (m :: _) => hasKey m "when"
      | _ => false
  | none => false

/-- A value looked up in a JSON object is smaller than the object's entry
list (termination measure for the decoders). -/
theorem sizeOf_lookupKey {kvs : List (String × Json)} {k : String} {v : Json}
    (h : lookupKey kvs k = some v) : sizeOf v < sizeOf kvs := by
  induction kvs with
  | nil => simp [lookupKey] at h
  | cons p rest ih =>
      obtain ⟨k', v'⟩ := p
      by_cases hk : k' = k
      · simp [lookupKey, hk] at h
        subst h
        simp
        omega
      · simp [lookupKey, hk] at h
        have := ih h
        simp
        omega

/-- The lookup result is never larger than the whole entry list (termination
measure for decoders that pass a looked-up raw value on). -/
theorem sizeOf_lookupKey_le (kvs : List (String × Json)) (k : String) :
    sizeOf (lookupKey kvs k) ≤ sizeOf kvs := by
  cases h : lookupKey kvs k with
  | none =>
      cases kvs <;> simp <;> omega
  | some v =>
      have := sizeOf_lookupKey h
      simp
      omega

mutual

/-- `unmarshalCondition` from the source: unmarshals the bytes into a
`map[string]json.RawMessage` (null yields a nil map; a non-object is a
JSON type error) and dispatches on the keys present. -/
def unmarshalCondition (j : Json) : Except DecodeErr GoVal :=
  match j with
  | .obj kvs => unmarshalConditionObj kvs
  | .null => unmarshalConditionObj []
  | _ => .error (.jsonType "map[string]json.RawMessage")
termination_by 16 * sizeOf j + 6
decreasing_by
  all_goals simp_wf
  all_goals omega

/-- The key dispatch of `unmarshalCondition`: `op`+`fieldName` → RangeOp
when `start` is present, else BoolOp; `op`+`conditions` (no `fieldName`) →
WhereGroup; anything else → unknown condition type. -/
def unmarshalConditionObj (kvs : List (String × Json)) : Except DecodeErr GoVal :=
  if hasKey kvs "op" then
    if hasKey kvs "fieldName" then
      if hasKey kvs "start" then rangeOpFromJson kvs
      else boolOpFromJson kvs
    else if hasKey kvs "conditions" then whereGroupFromJson kvs
    else .error .unknownCondition
  else .error .unknownCondition
termination_by 16 * sizeOf kvs + 5
decreasing_by
  all_goals simp_wf
  all_goals omega

/-- `unmarshalExpression` from the source (same map unmarshalling as
`unmarshalCondition`). -/
def unmarshalExpression (j : Json) : Except DecodeErr GoVal :=
  match j with
  | .obj kvs => unmarshalExpressionObj kvs
  | .null => unmarshalExpressionObj []
  | _ => .error (.jsonType "map[string]json.RawMessage")
termination_by 16 * sizeOf j + 6
decreasing_by
  all_goals simp_wf
  all_goals omega

/-- The key dispatch of `unmarshalExpression`: Case trigger, then
`fields` → Coalesce, then `value` → Literal, then `name` → Field, then
`op`+`fieldName` → RangeOp/BoolOp, else unknown expression type. -/
def unmarshalExpressionObj (kvs : List (String × Json)) : Except DecodeErr GoVal :=
  if caseTrigger kvs then caseFromJson kvs
  else if hasKey kvs "fields" then coalesceFromJson kvs
  else if hasKey kvs "value" then literalFromJson kvs
  else if hasKey kvs "name" then fieldFromJson kvs
  else if hasKey kvs "op" && hasKey kvs "fieldName" then
    if hasKey kvs "start" then rangeOpFromJson kvs
    else boolOpFromJson kvs
  else .error .unknownExpression
termination_by 16 * sizeOf kvs + 5
decreasing_by
  all_goals simp_wf
  all_goals omega

/-- `unmarshalValue` from the source: try `unmarshalExpression` first, fall
back to the raw scalar decode (which always succeeds on a parsed
document). -/
def unmarshalValue (j : Json) : GoVal :=
  match unmarshalExpression j with
  | .ok v => v
  | .error _ => simpleDecode j
termination_by 16 * sizeOf j + 7
decreasing_by
  all_goals simp_wf
  all_goals omega

/-- A raw value-position message: absent leaves the nil zero value,
otherwise `unmarshalValue` (BoolOp's `value`, RangeOp's `start`/`end`,
WhenThen's `then`). -/
def decodeRawValue (o : Option Json) : GoVal :=
  match o with
  | none => .vnull
  | some vj => unmarshalValue vj
termination_by 16 * sizeOf o + 2
decreasing_by
  all_goals simp_wf
  all_goals omega

/-- `BoolOp.UnmarshalJSON`: string fields `op`/`fieldName`/`tableAlias`
(absent → zero value), `op` mapped through `stringToBoolOp`, and the raw
`value` decoded through `unmarshalValue` only when present. -/
def boolOpFromJson (kvs : List (String × Json)) : Except DecodeErr GoVal := do
  let opS ← getStrField kvs "op"
  let fn ← getStrField kvs "fieldName"
  let ta ← getStrField kvs "tableAlias"
  pure (.vboolop (stringToBoolOp opS) fn ta (decodeRawValue (lookupKey kvs "value")))
termination_by 16 * sizeOf kvs + 4
decreasing_by
  all_goals simp_wf
  all_goals (have h1 := sizeOf_lookupKey_le kvs "value"; omega)

/-- `RangeOp.UnmarshalJSON`: like `BoolOp` with raw `start`/`end` decoded
through `unmarshalValue` when present. -/
def rangeOpFromJson (kvs : List (String × Json)) : Except DecodeErr GoVal := do
  let opS ← getStrField kvs "op"
  let fn ← getStrField kvs "fieldName"
  let ta ← getStrField kvs "tableAlias"
  pure (.vrangeop (stringToRangeOp opS) fn ta
    (decodeRawValue (lookupKey kvs "start"))
    (decodeRawValue (lookupKey kvs "end")))
termination_by 16 * sizeOf kvs + 4
decreasing_by
  all_goals simp_wf
  all_goals
    (have h1 := sizeOf_lookupKey_le kvs "start"
     have h2 := sizeOf_lookupKey_le kvs "end"
     omega)

/-- The raw `conditions` list of a WhereGroup: absent or null leaves nil,
an array decodes entry-wise, anything else is a type error. -/
def decodeCondsRaw (o : Option Json) : Except DecodeErr (List GoVal) :=
  match o with
  | none => .ok []
  | some .null => .ok []
  | some (.arr xs) => decodeCondList xs 0
  | some _ => .error (.jsonType "conditions")
termination_by 16 * sizeOf o + 2
decreasing_by
  all_goals simp_wf
  all_goals omega

/-- `WhereGroup.UnmarshalJSON`: the `op` string mapped through
`stringToExpressionListType`, each raw `conditions` entry recursively
decoded by `unmarshalCondition` (failures wrapped with the entry index). -/
def whereGroupFromJson (kvs : List (String × Json)) : Except DecodeErr GoVal := do
  let opS ← getStrField kvs "op"
  let conds ← decodeCondsRaw (lookupKey kvs "conditions")
  pure (.vwheregroup (stringToExpressionListType opS) conds)
termination_by 16 * sizeOf kvs + 4
decreasing_by
  all_goals simp_wf
  all_goals (have h1 := sizeOf_lookupKey_le kvs "conditions"; omega)

/-- The `conditions` loop shared by `WhereGroup.UnmarshalJSON`,
`SQLBuilder.UnmarshalJSON` (wheres) and `Relation.UnmarshalJSON` (on):
each entry through `unmarshalCondition`, errors wrapped with the index. -/
def decodeCondList (js : List Json) (i : Nat) : Except DecodeErr (List GoVal) :=
  match js with
  | [] => .ok []
  | j :: rest =>
      match unmarshalCondition j with
      | .error e => .error (.wrapped "failed to unmarshal condition at index" i e)
      | .ok c => do pure (c :: (← decodeCondList rest (i + 1)))
termination_by 16 * sizeOf js + 3
decreasing_by
  all_goals simp_wf
  all_goals omega

/-- The raw `args` list of a Literal: absent or null leaves nil, an array
decodes entry-wise through `unmarshalValue`, anything else is a type
error. -/
def decodeArgsRaw (o : Option Json) : Except DecodeErr (List GoVal) :=
  match o with
  | none => .ok []
  | some .null => .ok []
  | some (.arr xs) => .ok (unmarshalValueList xs)
  | some _ => .error (.jsonType "args")
termination_by 16 * sizeOf o + 2
decreasing_by
  all_goals simp_wf
  all_goals omega

/-- `Literal.UnmarshalJSON`: the `value` string field and each raw `args`
entry through `unmarshalValue`. -/
def literalFromJson (kvs : List (String × Json)) : Except DecodeErr GoVal := do
  let v : String ← match lookupKey kvs "value" with
    | none => pure ""
    | some .null => pure ""
    | some (.str s) => pure s
    | some _ => .error (.jsonType "value")
  let args ← decodeArgsRaw (lookupKey kvs "args")
  pure (.vliteral v args)
termination_by 16 * sizeOf kvs + 4
decreasing_by
  all_goals simp_wf
  all_goals (have h1 := sizeOf_lookupKey_le kvs "args"; omega)

/-- The args loop of `Literal.UnmarshalJSON`. -/
def unmarshalValueList (js : List Json) : List GoVal :=
  match js with
  | [] => []
  | j :: rest => unmarshalValue j :: unmarshalValueList rest
termination_by 16 * sizeOf js + 3
decreasing_by
  all_goals simp_wf
  all_goals omega

/-- The raw `exp` of a Field: absent leaves nil, anything present —
including JSON null — must decode through `unmarshalExpression`, and a
failure there fails the whole field decode ("failed to unmarshal field
expression"). -/
def decodeExpRaw (o : Option Json) : Except DecodeErr (Option GoVal) :=
  match o with
  | none => .ok none
  | some ej =>
      match unmarshalExpression ej with
      | .ok e => .ok (some e)
      | .error e => .error (.wrapCtx "failed to unmarshal field expression" e)
termination_by 16 * sizeOf o + 2
decreasing_by
  all_goals simp_wf
  all_goals omega

/-- `Field.UnmarshalJSON`: string fields plus the raw `exp` through
`unmarshalExpression` when present. -/
def fieldFromJson (kvs : List (String × Json)) : Except DecodeErr GoVal := do
  let n ← getStrField kvs "name"
  let ta ← getStrField kvs "tableAlias"
  let fa ← getStrField kvs "fieldAlias"
  let e ← decodeExpRaw (lookupKey kvs "exp")
  pure (.vfield n ta fa e)
termination_by 16 * sizeOf kvs + 4
decreasing_by
  all_goals simp_wf
  all_goals (have h1 := sizeOf_lookupKey_le kvs "exp"; omega)

/-- A `[]Field` element decode (`Field.UnmarshalJSON` is invoked for each
entry; a JSON null leaves the zero-value field). -/
def fieldFromJsonJ (j : Json) : Except DecodeErr GoVal :=
  match j with
  | .obj kvs => fieldFromJson kvs
  | .null => pure (.vfield "" "" "" none)
  | _ => .error (.jsonType "Field")
termination_by 16 * sizeOf j + 5
decreasing_by
  all_goals simp_wf
  all_goals omega

/-- The `[]Field` loop (Coalesce's `Fields`). -/
def fieldList (js : List Json) : Except DecodeErr (List GoVal) :=
  match js with
  | [] => .ok []
  | j :: rest => do pure ((← fieldFromJsonJ j) :: (← fieldList rest))
termination_by 16 * sizeOf js + 3
decreasing_by
  all_goals simp_wf
  all_goals omega

/-- The raw `conditions` of a Case decoded as `[]WhenThen`. -/
def decodeWhenThensRaw (o : Option Json) :
    Except DecodeErr (List (GoVal × GoVal)) :=
  match o with
  | none => .ok []
  | some .null => .ok []
  | some (.arr xs) => whenThenList xs
  | some _ => .error (.jsonType "conditions")
termination_by 16 * sizeOf o + 2
decreasing_by
  all_goals simp_wf
  all_goals omega

/-- The raw `else` of a Case: when present it is tried as an expression
with a raw-scalar fallback; a nil result leaves `Else` nil. -/
def decodeElseRaw (o : Option Json) : Option GoVal :=
  match o with
  | none => none
  | some elJ =>
      match unmarshalExpression elJ with
      | .ok v => (match v with | .vnull => none | v' => some v')
      | .error _ =>
          match simpleDecode elJ with
          | .vnull => none
          | v' => some v'
termination_by 16 * sizeOf o + 2
decreasing_by
  all_goals simp_wf
  all_goals omega

/-- `Case.UnmarshalJSON`: `conditions` decoded as `[]WhenThen` (each entry
via `WhenThen.UnmarshalJSON`), the raw `else` (when present) tried as an
expression with a raw-scalar fallback. -/
def caseFromJson (kvs : List (String × Json)) : Except DecodeErr GoVal := do
  let arms ← decodeWhenThensRaw (lookupKey kvs "conditions")
  pure (.vcase arms (decodeElseRaw (lookupKey kvs "else")))
termination_by 16 * sizeOf kvs + 4
decreasing_by
  all_goals simp_wf
  all_goals
    (have h1 := sizeOf_lookupKey_le kvs "conditions"
     have h2 := sizeOf_lookupKey_le kvs "else"
     omega)

/-- The `[]WhenThen` loop. -/
def whenThenList (js : List Json) : Except DecodeErr (List (GoVal × GoVal)) :=
  match js with
  | [] => .ok []
  | j :: rest => do pure ((← whenThenFromJson j) :: (← whenThenList rest))
termination_by 16 * sizeOf js + 3
decreasing_by
  all_goals simp_wf
  all_goals omega

/-- The raw `when` decode: absent leaves nil, otherwise the
condition/expression/raw fallback chain. -/
def decodeWhenRaw (o : Option Json) : GoVal :=
  match o with
  | none => .vnull
  | some wj => whenDecode wj
termination_by 16 * sizeOf o + 9
decreasing_by
  all_goals simp_wf
  all_goals omega

/-- `WhenThen.UnmarshalJSON`: the raw `when` tried as a condition, then as
an expression, then as a raw scalar; the raw `then` through
`unmarshalValue`; absent fields stay nil; a null entry leaves the zero
value. -/
def whenThenFromJson (j : Json) : Except DecodeErr (GoVal × GoVal) :=
  match j with
  | .obj kvs =>
      .ok (decodeWhenRaw (lookupKey kvs "when"),
        decodeRawValue (lookupKey kvs "then"))
  | .null => .ok (.vnull, .vnull)
  | _ => .error (.jsonType "WhenThen")
termination_by 16 * sizeOf j + 12
decreasing_by
  all_goals simp_wf
  all_goals
    (have h1 := sizeOf_lookupKey_le kvs "when"
     have h2 := sizeOf_lookupKey_le kvs "then"
     omega)

/-- The when-position fallback chain: condition, then expression, then raw
scalar. -/
def whenDecode (j : Json) : GoVal :=
  match unmarshalCondition j with
  | .ok w => w
  | .error _ =>
      match unmarshalExpression j with
      | .ok w => w
      | .error _ => simpleDecode j
termination_by 16 * sizeOf j + 8
decreasing_by
  all_goals simp_wf
  all_goals omega

/-- The raw `fields` of a Coalesce decoded as `[]Field`. -/
def decodeFieldsRaw (o : Option Json) : Except DecodeErr (List GoVal) :=
  match o with
  | none => .ok []
  | some .null => .ok []
  | some (.arr xs) => fieldList xs
  | some _ => .error (.jsonType "fields")
termination_by 16 * sizeOf o + 2
decreasing_by
  all_goals simp_wf
  all_goals omega

/-- `Coalesce` has no custom unmarshaller: the default struct decode runs
`Field.UnmarshalJSON` on each `fields` entry but decodes `defaultValue`
as a plain `any` — no expression sniffing. -/
def coalesceFromJson (kvs : List (String × Json)) : Except DecodeErr GoVal := do
  let fs ← decodeFieldsRaw (lookupKey kvs "fields")
  let d : Option GoVal :=
    match lookupKey kvs "defaultValue" with
    | none => none
    | some dj =>
        match simpleDecode dj with
        | .vnull => none
        | v => some v
  pure (.vcoalesce fs d)
termination_by 16 * sizeOf kvs + 4
decreasing_by
  all_goals simp_wf
  all_goals (have h1 := sizeOf_lookupKey_le kvs "fields"; omega)

end

/-- Is this value one of the three condition types the child-loop switch
recognises? -/
def isCondVal : GoVal → Bool
  | .vboolop _ _ _ _ => true
  | .vrangeop _ _ _ _ _ => true
  | .vwheregroup _ _ => true
  | _ => false

mutual

/-- Logical semantics of a compiled expression under an arbitrary valuation
of its non-list atoms: `And`/`Or` lists evaluate as the conjunction/
disjunction of their members, everything else is whatever the backend makes
of it (`ρ`).  Used to express that structural wrappers the compiler
introduces do not change the predicate's meaning. -/
def evalUnder (ρ : GoquExpr → Bool) (e : GoquExpr) : Bool :=
  match e with
  | .andE es => evalAllUnder ρ es
  | .orE es => evalAnyUnder ρ es
  | e => ρ e
termination_by 2 * sizeOf e + 1
decreasing_by
  all_goals simp_wf
  all_goals omega

/-- Conjunction over a compiled expression list. -/
def evalAllUnder (ρ : GoquExpr → Bool) (es : List GoquExpr) : Bool :=
  match es with
  | [] => true
  | e :: rest => evalUnder ρ e && evalAllUnder ρ rest
termination_by 2 * sizeOf es
decreasing_by
  all_goals simp_wf
  all_goals omega

/-- Disjunction over a compiled expression list. -/
def evalAnyUnder (ρ : GoquExpr → Bool) (es : List GoquExpr) : Bool :=
  match es with
  | [] => false
  | e :: rest => evalUnder ρ e || evalAnyUnder ρ rest
termination_by 2 * sizeOf es
decreasing_by
  all_goals simp_wf
  all_goals omega

end

/-- Non-condition values fall through the child switch, leaving a nil
expression. -/
theorem condExprOf_not_cond (x : GoVal) (h : isCondVal x = false) :
    condExprOf x = some .nilE := by
  cases x <;> simp_all [isCondVal, condExprOf]

/-- A child whose compile yields a nil expression contributes nothing to
the collected list. -/
theorem collectCondExprs_cons_nil (x : GoVal) (xs : List GoVal)
    (h : condExprOf x = some .nilE) :
    collectCondExprs (x :: xs) = collectCondExprs xs := by
  rw [collectCondExprs]
  simp only [h]
  cases hc : collectCondExprs xs <;> simp [bind, Option.bind, hc]

/-- When every child yields a nil expression, nothing is collected. -/
theorem collectCondExprs_all_nil (xs : List GoVal)
    (h : ∀ x ∈ xs, condExprOf x = some .nilE) :
    collectCondExprs xs = some [] := by
  induction xs with
  | nil => rw [collectCondExprs]
  | cons x rest ih =>
      rw [collectCondExprs_cons_nil x rest (h x (by simp))]
      exact ih (fun y hy => h y (by simp [hy]))

/-- C6: compiling a `WhereGroup` skips (without error) every child that
produces no expression — including children that are not `BoolOp`,
`RangeOp` or `WhereGroup` values — and when zero children resolve the
group compiles to an absent (nil) expression rather than a malformed empty
AND/OR group; otherwise the remaining expressions are combined with the
group's And/Or operator. -/
theorem whereGroup_skip_and_empty_absent :
    (∀ x : GoVal, isCondVal x = false → condExprOf x = some .nilE) ∧
    (∀ (op : GroupOperator) (x : GoVal) (xs : List GoVal),
        condExprOf x = some .nilE →
        whereGroupExpression op (x :: xs) = whereGroupExpression op xs) ∧
    (∀ (op : GroupOperator) (xs : List GoVal),
        (∀ x ∈ xs, condExprOf x = some .nilE) →
        whereGroupExpression op xs = some .nilE) ∧
    (∀ (op : GroupOperator) (xs : List GoVal) (es : List GoquExpr),
        collectCondExprs xs = some es → es ≠ [] →
        whereGroupExpression op xs =
          some (match op with | .orType => .orE es | _ => .andE es)) := by
  refine ⟨condExprOf_not_cond, ?_, ?_, ?_⟩
  · intro op x xs h
    rw [whereGroupExpression, whereGroupExpression, collectCondExprs_cons_nil x xs h]
  · intro op xs h
    rw [whereGroupExpression, collectCondExprs_all_nil xs h]
    rfl
  · intro op xs es h hne
    rw [whereGroupExpression, h]
    cases es with
    | nil => exact absurd rfl hne
    | cons e rest => cases op <;> rfl

/-- Witness for C6: an Or-group whose children are a non-condition string
and a `WhereGroup` with no resolvable children compiles to the absent
expression. -/
theorem whereGroup_skip_and_empty_absent_witness :
    whereGroupExpression .orType [.vstr "junk", .vwheregroup .andType []] =
      some .nilE := by
  refine whereGroup_skip_and_empty_absent.2.2.1 .orType _ ?_
  intro x hx
  simp only [List.mem_cons, List.not_mem_nil, or_false] at hx
  rcases hx with h | h <;> subst h
  · simp [condExprOf]
  · simp [condExprOf, whereGroupExpression, collectCondExprs]

/-- C8: an And or Or `WhereGroup` wrapping exactly one resolvable child
compiles to a one-element expression list that is logically identical to
the child's own compilation under every valuation of the atomic
fragments (wrapping a single condition in a group is an identity). -/
theorem single_child_group_identity :
    ∀ (ρ : GoquExpr → Bool) (op : GroupOperator) (c : GoVal) (e : GoquExpr),
      condExprOf c = some e → e ≠ .nilE →
      whereGroupExpression op [c] =
        some (match op with | .orType => .orE [e] | _ => .andE [e]) ∧
      evalUnder ρ (match op with | .orType => .orE [e] | _ => .andE [e]) =
        evalUnder ρ e := by
  intro ρ op c e h hne
  have hcol : collectCondExprs [c] = some [e] := by
    rw [collectCondExprs, h, collectCondExprs]
    cases e <;> simp_all [bind, Option.bind]
  constructor
  · rw [whereGroupExpression, hcol]
    cases op <;> rfl
  · cases op
    · rw [evalUnder, evalAllUnder, evalAllUnder, Bool.and_true]
    · rw [evalUnder, evalAnyUnder, evalAnyUnder, Bool.or_false]

/-- Witness for C8 at a concrete And-group around one equality condition. -/
theorem single_child_group_identity_witness :
    whereGroupExpression .andType [.vboolop .eqOp "status" "u" (.vstr "active")] =
      some (.andE [.boolE .eqOp (.column "u" "status") (.val (.vstr "active"))]) ∧
    evalUnder (fun _ => true)
        (.andE [.boolE .eqOp (.column "u" "status") (.val (.vstr "active"))]) =
      evalUnder (fun _ => true)
        (.boolE .eqOp (.column "u" "status") (.val (.vstr "active"))) := by
  have h := single_child_group_identity (fun _ => true) .andType
    (.vboolop .eqOp "status" "u" (.vstr "active"))
    (.boolE .eqOp (.column "u" "status") (.val (.vstr "active")))
    (by simp [condExprOf, boolOpExpression, handleAny, typeTests, processOptions])
    (by simp)
  exact h

/-- C5: resolving an empty sequence yields the explicitly-typed empty-set
literal form `(?)` bound to an empty value list, never an error, while a
non-empty sequence is emitted as a bound multi-value literal preserving
element order; in particular a `BoolOp.In` over an empty sequence gets that
well-formed literal as its right-hand side. -/
theorem empty_sequence_in :
    handleAny (.vlist []) [] = some (.lit "(?)" [.val (.vlist [])]) ∧
    (∀ xs : List GoVal, xs ≠ [] →
        handleAny (.vlist xs) [] = some (.val (.vlist xs))) ∧
    (∀ (f t : String) (v : GoVal) (hv : GoquExpr), handleAny v [] = some hv →
        boolOpExpression .inOp f t v = some (.boolE .inOp (.column t f) hv)) ∧
    (∀ f t : String, boolOpExpression .inOp f t (.vlist []) =
        some (.boolE .inOp (.column t f) (.lit "(?)" [.val (.vlist [])]))) := by
  refine ⟨by simp [handleAny, typeTests, processOptions], ?_, ?_, ?_⟩
  · intro xs hne
    cases xs with
    | nil => exact absurd rfl hne
    | cons x rest => simp [handleAny, typeTests, processOptions]
  · intro f t v hv h
    simp [boolOpExpression, h]
  · intro f t
    simp [boolOpExpression, handleAny, typeTests, processOptions]

/-- Witness for C5 with the non-empty sequence `["US", "CA"]`. -/
theorem empty_sequence_in_witness :
    handleAny (.vlist [.vstr "US", .vstr "CA"]) [] =
      some (.val (.vlist [.vstr "US", .vstr "CA"])) ∧
    boolOpExpression .inOp "country" "u" (.vlist [.vstr "US", .vstr "CA"]) =
      some (.boolE .inOp (.column "u" "country")
        (.val (.vlist [.vstr "US", .vstr "CA"]))) := by
  constructor
  · exact empty_sequence_in.2.1 _ (by simp)
  · exact empty_sequence_in.2.2.1 "country" "u" _ _
      (empty_sequence_in.2.1 _ (by simp))

/-- C4 (claim says `handleAny` never raises; the code does): evaluating the
resolver at a `Field` that carries an `Exp` but neither a field alias nor a
name makes `Field.expression` pass a nil `handleAnyOption` function, which
`handleAny`'s option loop invokes — a nil-function-call panic, modelled as
`none`.  The remaining conjuncts record the behaviour the claim correctly
describes: nil and nil pointers yield the NULL literal and unmatched values
degrade to a bound literal. -/
theorem handleAny_raises_on_unaliasable_exp_field :
    handleAny (.vfield "" "" "" (some (.vliteral "NOW()" []))) [] = none ∧
    handleAny .vnull [] = some (.lit "NULL" []) ∧
    handleAny (.vptr none) [] = some (.lit "NULL" []) ∧
    handleAny (.vbool true) [] = some (.val (.vbool true)) := by
  refine ⟨?_, ?_, ?_, ?_⟩ <;>
    simp [handleAny, typeTests, fieldExpression, processOptions]

/-- C3: with an empty `Wheres` list both `Edit` and `Delete` return the
missing-WHERE error together with an empty query string and nil arguments,
and never build a query. -/
theorem edit_delete_require_where (qb : SQLBuilder)
    (entry : List (String × GoVal)) (h : qb.Wheres = []) :
    qb.Edit entry = some (.failure "" none .missingWhereCondition) ∧
    qb.Delete = some (.failure "" none .missingWhereCondition) := by
  constructor <;> simp [SQLBuilder.Edit, SQLBuilder.Delete, h]

/-- Witness for C3 on a freshly constructed builder. -/
theorem edit_delete_require_where_witness :
    (New "mysql" "users" "u").Wheres = [] ∧
    (New "mysql" "users" "u").Edit [("name", .vstr "x")] =
      some (.failure "" none .missingWhereCondition) ∧
    (New "mysql" "users" "u").Delete =
      some (.failure "" none .missingWhereCondition) :=
  ⟨rfl, edit_delete_require_where (New "mysql" "users" "u") [("name", .vstr "x")] rfl⟩

/-- C9: `New` sets the default limit 10, so `Select` and `Count` hand goqu a
prepared dataset with LIMIT 10 unless the caller sets a different limit;
`Limit 0` / `Offset 0` make `applyLimitOffset` omit the clause entirely. -/
theorem new_default_limit_and_zero_omits :
    ∀ (d t a : String) (n m : Nat) (qb : SQLBuilder) (dl tn ta : String)
      (j s w o g : List GoquExpr) (p : Bool),
    (New d t a).limit = 10 ∧
    (New d t a).Select = some (.dataset d t a [] [] [] [] [] (some 10) none true) ∧
    (New d t a).Count =
      some (.dataset d t a [] [.countStar] [] [] [] (some 10) none true) ∧
    ((New d t a).Limit n).Select =
      some (.dataset d t a [] [] [] [] []
        (if n > 0 then some n else none) none true) ∧
    ((New d t a).Offset m).Select =
      some (.dataset d t a [] [] [] [] [] (some 10)
        (if m > 0 then some m else none) true) ∧
    qb.applyLimitOffset (.dataset dl tn ta j s w o g none none p) =
      .dataset dl tn ta j s w o g
        (if qb.limit > 0 then some qb.limit else none)
        (if qb.offset > 0 then some qb.offset else none) p := by
  intro d t a n m qb dl tn ta j s w o g p
  refine ⟨rfl, ?_, ?_, ?_, ?_, ?_⟩ <;>
    simp [New, SQLBuilder.Select, SQLBuilder.Count, SQLBuilder.mainSelect,
      SQLBuilder.Limit, SQLBuilder.Offset, mainSelectCore, relationJoins,
      fieldExprList, handleAnyList, SQLBuilder.applyLimitOffset, dsPrepared,
      dsSelect, bind, Option.bind]

/-- C10: the mutation guard tests only that `Wheres` is non-empty — an
`Edit`/`Delete` failure result occurs exactly when `Wheres` is empty, and a
builder whose single where entry is a `WhereGroup` with zero resolvable
children (so it resolves to no expression at all) still proceeds to emit a
query whose WHERE list holds just the nil expression. -/
theorem mutation_guard_only_checks_length (qb : SQLBuilder)
    (entry : List (String × GoVal)) :
    ((∃ q args e, qb.Edit entry = some (.failure q args e)) ↔ qb.Wheres = []) ∧
    ((∃ q args e, qb.Delete = some (.failure q args e)) ↔ qb.Wheres = []) ∧
    (qb.Wheres = [.vwheregroup .andType []] →
      qb.Edit entry = some (.updateQuery qb.Dialect qb.Table.name [.nilE] entry true) ∧
      qb.Delete = some (.deleteQuery qb.Dialect qb.Table.name [.nilE] true)) := by
  have hgroup : handleAnyList [GoVal.vwheregroup .andType []] = some [.nilE] := by
    simp [handleAnyList, handleAny, typeTests, whereGroupExpression,
      collectCondExprs, processOptions]
  refine ⟨?_, ?_, ?_⟩
  · constructor
    · rintro ⟨q, args, e, h⟩
      by_contra hne
      rw [SQLBuilder.Edit, if_neg (by simpa using hne)] at h
      cases hs : handleAnyList qb.Wheres <;> simp [hs, bind, Option.bind] at h
    · intro h
      exact ⟨"", none, .missingWhereCondition, by simp [SQLBuilder.Edit, h]⟩
  · constructor
    · rintro ⟨q, args, e, h⟩
      by_contra hne
      rw [SQLBuilder.Delete, if_neg (by simpa using hne)] at h
      cases hs : handleAnyList qb.Wheres <;> simp [hs, bind, Option.bind] at h
    · intro h
      exact ⟨"", none, .missingWhereCondition, by simp [SQLBuilder.Delete, h]⟩
  · intro h
    constructor
    · simp [SQLBuilder.Edit, h, hgroup]
    · simp [SQLBuilder.Delete, h, hgroup]

/-- Witness for C10: a builder whose only where entry resolves to no
expression still emits UPDATE and DELETE queries. -/
theorem mutation_guard_only_checks_length_witness :
    ((New "mysql" "users" "u").Where [.vwheregroup .andType []]).Edit [] =
      some (.updateQuery "mysql" "users" [.nilE] [] true) ∧
    ((New "mysql" "users" "u").Where [.vwheregroup .andType []]).Delete =
      some (.deleteQuery "mysql" "users" [.nilE] true) :=
  (mutation_guard_only_checks_length
    ((New "mysql" "users" "u").Where [.vwheregroup .andType []]) []).2.2 rfl

section Congruence

variable {kvs kvs' : List (String × Json)}

/-- All decoder bodies read the object only through `lookupKey`, so two
objects with the same lookups decode identically (no dependence on entry
order or map iteration order). -/
theorem getStrField_congr (hL : ∀ k, lookupKey kvs k = lookupKey kvs' k)
    (k : String) : getStrField kvs k = getStrField kvs' k := by
  simp only [getStrField, hL]

theorem caseTrigger_congr (hL : ∀ k, lookupKey kvs k = lookupKey kvs' k) :
    caseTrigger kvs = caseTrigger kvs' := by
  simp only [caseTrigger, hL]

theorem boolOpFromJson_congr (hL : ∀ k, lookupKey kvs k = lookupKey kvs' k) :
    boolOpFromJson kvs = boolOpFromJson kvs' := by
  rw [boolOpFromJson, boolOpFromJson]
  simp only [getStrField, hL]

theorem rangeOpFromJson_congr (hL : ∀ k, lookupKey kvs k = lookupKey kvs' k) :
    rangeOpFromJson kvs = rangeOpFromJson kvs' := by
  rw [rangeOpFromJson, rangeOpFromJson]
  simp only [getStrField, hL]

theorem whereGroupFromJson_congr (hL : ∀ k, lookupKey kvs k = lookupKey kvs' k) :
    whereGroupFromJson kvs = whereGroupFromJson kvs' := by
  rw [whereGroupFromJson, whereGroupFromJson]
  simp only [getStrField, hL]

theorem literalFromJson_congr (hL : ∀ k, lookupKey kvs k = lookupKey kvs' k) :
    literalFromJson kvs = literalFromJson kvs' := by
  rw [literalFromJson, literalFromJson]
  simp only [hL]

theorem fieldFromJson_congr (hL : ∀ k, lookupKey kvs k = lookupKey kvs' k) :
    fieldFromJson kvs = fieldFromJson kvs' := by
  rw [fieldFromJson, fieldFromJson]
  simp only [getStrField, hL]

theorem caseFromJson_congr (hL : ∀ k, lookupKey kvs k = lookupKey kvs' k) :
    caseFromJson kvs = caseFromJson kvs' := by
  rw [caseFromJson, caseFromJson]
  simp only [getStrField, hL]

theorem coalesceFromJson_congr (hL : ∀ k, lookupKey kvs k = lookupKey kvs' k) :
    coalesceFromJson kvs = coalesceFromJson kvs' := by
  rw [coalesceFromJson, coalesceFromJson]
  simp only [hL]

theorem unmarshalConditionObj_congr
    (hL : ∀ k, lookupKey kvs k = lookupKey kvs' k) :
    unmarshalConditionObj kvs = unmarshalConditionObj kvs' := by
  rw [unmarshalConditionObj, unmarshalConditionObj,
    rangeOpFromJson_congr hL, boolOpFromJson_congr hL, whereGroupFromJson_congr hL]
  simp only [hasKey, hL]

theorem unmarshalExpressionObj_congr
    (hL : ∀ k, lookupKey kvs k = lookupKey kvs' k) :
    unmarshalExpressionObj kvs = unmarshalExpressionObj kvs' := by
  rw [unmarshalExpressionObj, unmarshalExpressionObj, caseTrigger_congr hL,
    caseFromJson_congr hL, coalesceFromJson_congr hL, literalFromJson_congr hL,
    fieldFromJson_congr hL, rangeOpFromJson_congr hL, boolOpFromJson_congr hL]
  simp only [hasKey, hL]

end Congruence

/-- C2 (amended): on every object node `unmarshalCondition` dispatches in
the fixed priority order — `op`+`fieldName` goes to the RangeOp decoder
when `start` is present (so such a node can only ever decode to a RangeOp,
never a BoolOp, independent of entry order) and to the BoolOp decoder
otherwise; `op`+`conditions` without `fieldName` goes to the WhereGroup
decoder, whose entries recurse through `unmarshalCondition`; any other
object (and null, which unmarshals to a nil map) fails with the
unknown-condition error; and decoding depends only on the key lookups,
not on entry order.  (Non-object nodes fail with the JSON unmarshal type
error instead — see the counterexample.) -/
theorem unmarshalCondition_shape_dispatch :
    (∀ kvs : List (String × Json),
      (hasKey kvs "op" = true → hasKey kvs "fieldName" = true →
        hasKey kvs "start" = true →
        unmarshalCondition (.obj kvs) = rangeOpFromJson kvs) ∧
      (hasKey kvs "op" = true → hasKey kvs "fieldName" = true →
        hasKey kvs "start" = false →
        unmarshalCondition (.obj kvs) = boolOpFromJson kvs) ∧
      (hasKey kvs "op" = true → hasKey kvs "fieldName" = false →
        hasKey kvs "conditions" = true →
        unmarshalCondition (.obj kvs) = whereGroupFromJson kvs) ∧
      (¬(hasKey kvs "op" = true ∧
          (hasKey kvs "fieldName" = true ∨ hasKey kvs "conditions" = true)) →
        unmarshalCondition (.obj kvs) = .error .unknownCondition)) ∧
    unmarshalCondition .null = .error .unknownCondition ∧
    (∀ (kvs : List (String × Json)) (v : GoVal), rangeOpFromJson kvs = .ok v →
      ∃ op fn ta s e, v = .vrangeop op fn ta s e) ∧
    (∀ (j : Json) (rest : List Json) (i : Nat),
      decodeCondList (j :: rest) i =
        match unmarshalCondition j with
        | .error e => .error (.wrapped "failed to unmarshal condition at index" i e)
        | .ok c =>
            match decodeCondList rest (i + 1) with
            | .ok cs => .ok (c :: cs)
            | .error e => .error e) ∧
    (∀ kvs kvs' : List (String × Json),
      (∀ k, lookupKey kvs k = lookupKey kvs' k) →
      unmarshalCondition (.obj kvs) = unmarshalCondition (.obj kvs')) := by
  refine ⟨?_, by rw [unmarshalCondition, unmarshalConditionObj]; rfl, ?_, ?_, ?_⟩
  · intro kvs
    refine ⟨?_, ?_, ?_, ?_⟩
    · intro h1 h2 h3
      rw [unmarshalCondition, unmarshalConditionObj, if_pos h1, if_pos h2, if_pos h3]
    · intro h1 h2 h3
      rw [unmarshalCondition, unmarshalConditionObj, if_pos h1, if_pos h2,
        if_neg (by simp [h3])]
    · intro h1 h2 h3
      rw [unmarshalCondition, unmarshalConditionObj, if_pos h1,
        if_neg (by simp [h2]), if_pos h3]
    · intro h
      rw [unmarshalCondition, unmarshalConditionObj]
      cases hop : hasKey kvs "op" with
      | false => simp
      | true =>
          have hfn : hasKey kvs "fieldName" = false := by
            cases hf : hasKey kvs "fieldName"
            · rfl
            · exact absurd ⟨hop, Or.inl hf⟩ h
          have hcond : hasKey kvs "conditions" = false := by
            cases hc : hasKey kvs "conditions"
            · rfl
            · exact absurd ⟨hop, Or.inr hc⟩ h
          simp [hfn, hcond]
  · intro kvs v h
    rw [rangeOpFromJson] at h
    rcases h1 : getStrField kvs "op" with e1 | opS <;>
      rcases h2 : getStrField kvs "fieldName" with e2 | fn <;>
        rcases h3 : getStrField kvs "tableAlias" with e3 | ta <;>
          rw [h1, h2, h3] at h <;>
            simp [bind, Except.bind, pure, Except.pure] at h <;>
              exact ⟨_, _, _, _, _, h.symm⟩
  · intro j rest i
    rw [decodeCondList]
    cases hu : unmarshalCondition j with
    | error e => rfl
    | ok c =>
        cases hr : decodeCondList rest (i + 1) <;>
          simp [hu, hr, bind, Except.bind, pure, Except.pure]
  · intro kvs kvs' hL
    rw [unmarshalCondition, unmarshalCondition]
    exact unmarshalConditionObj_congr hL

/-- Counterexample for C2 as stated: a non-object node (the number `5`)
fails with the JSON unmarshal type error, not with the unknown-condition
error the claim asserts for "every other node". -/
theorem unmarshalCondition_nonobject_counterexample :
    unmarshalCondition (.num 5) = .error (.jsonType "map[string]json.RawMessage") ∧
    unmarshalCondition (.num 5) ≠ .error .unknownCondition ∧
    ∀ v, unmarshalCondition (.num 5) ≠ .ok v := by
  refine ⟨by simp [unmarshalCondition], by simp [unmarshalCondition], ?_⟩
  intro v
  simp [unmarshalCondition]

/-- C1 (amended): on every object node `unmarshalExpression` tests the
structural shapes in the fixed priority order — (1) the Case trigger
(`conditions` whose first array entry has `when`), (2) else `fields` →
Coalesce, (3) else `value` → Literal (whose `args` entries are decoded by
the expression-then-raw-scalar fallback `unmarshalValue`), (4) else
`name` → Field, (5) else `op`+`fieldName` → RangeOp when `start` is
present, else BoolOp — and any other object (or null) node fails with the
unknown-expression error.  A node with key `value` (and no higher-priority
shape) is dispatched to the Literal decoder without ever consulting `name`,
and a successful Literal decode is always a Literal value — never a Field.
(Non-object nodes fail with the JSON unmarshal type error instead — see
the counterexample.) -/
theorem unmarshalExpression_shape_dispatch :
    (∀ kvs : List (String × Json),
      (caseTrigger kvs = true →
        unmarshalExpression (.obj kvs) = caseFromJson kvs) ∧
      (caseTrigger kvs = false → hasKey kvs "fields" = true →
        unmarshalExpression (.obj kvs) = coalesceFromJson kvs) ∧
      (caseTrigger kvs = false → hasKey kvs "fields" = false →
        hasKey kvs "value" = true →
        unmarshalExpression (.obj kvs) = literalFromJson kvs) ∧
      (caseTrigger kvs = false → hasKey kvs "fields" = false →
        hasKey kvs "value" = false → hasKey kvs "name" = true →
        unmarshalExpression (.obj kvs) = fieldFromJson kvs) ∧
      (caseTrigger kvs = false → hasKey kvs "fields" = false →
        hasKey kvs "value" = false → hasKey kvs "name" = false →
        hasKey kvs "op" = true → hasKey kvs "fieldName" = true →
        unmarshalExpression (.obj kvs) =
          (if hasKey kvs "start" then rangeOpFromJson kvs
           else boolOpFromJson kvs)) ∧
      (caseTrigger kvs = false → hasKey kvs "fields" = false →
        hasKey kvs "value" = false → hasKey kvs "name" = false →
        (hasKey kvs "op" && hasKey kvs "fieldName") = false →
        unmarshalExpression (.obj kvs) = .error .unknownExpression)) ∧
    unmarshalExpression .null = .error .unknownExpression ∧
    (∀ (kvs : List (String × Json)) (v : GoVal), literalFromJson kvs = .ok v →
      ∃ s args, v = .vliteral s args) ∧
    (∀ j : Json, unmarshalValue j =
      match unmarshalExpression j with
      | .ok v => v
      | .error _ => simpleDecode j) ∧
    (∀ js : List Json, unmarshalValueList js = js.map unmarshalValue) := by
  refine ⟨?_, by rw [unmarshalExpression, unmarshalExpressionObj]; rfl, ?_, ?_, ?_⟩
  · intro kvs
    refine ⟨?_, ?_, ?_, ?_, ?_, ?_⟩
    · intro h1
      rw [unmarshalExpression, unmarshalExpressionObj, if_pos h1]
    · intro h1 h2
      rw [unmarshalExpression, unmarshalExpressionObj, if_neg (by simp [h1]),
        if_pos h2]
    · intro h1 h2 h3
      rw [unmarshalExpression, unmarshalExpressionObj, if_neg (by simp [h1]),
        if_neg (by simp [h2]), if_pos h3]
    · intro h1 h2 h3 h4
      rw [unmarshalExpression, unmarshalExpressionObj, if_neg (by simp [h1]),
        if_neg (by simp [h2]), if_neg (by simp [h3]), if_pos h4]
    · intro h1 h2 h3 h4 h5 h6
      rw [unmarshalExpression, unmarshalExpressionObj, if_neg (by simp [h1]),
        if_neg (by simp [h2]), if_neg (by simp [h3]), if_neg (by simp [h4]),
        if_pos (by simp [h5, h6])]
    · intro h1 h2 h3 h4 h5
      rw [unmarshalExpression, unmarshalExpressionObj, if_neg (by simp [h1]),
        if_neg (by simp [h2]), if_neg (by simp [h3]), if_neg (by simp [h4]),
        if_neg (by simp [h5])]
  · intro kvs v h
    rw [literalFromJson] at h
    simp only [bind, Except.bind, pure, Except.pure] at h
    repeat' split at h
    all_goals (try cases h)
    all_goals exact ⟨_, _, rfl⟩
  · intro j
    rw [unmarshalValue]
  · intro js
    induction js with
    | nil => rw [unmarshalValueList]; rfl
    | cons j rest ih => rw [unmarshalValueList, List.map_cons, ih]

/-- Witness for C1: a node carrying both `value` and `name` keys is
dispatched to the Literal decoder and decodes to a Literal, not a Field. -/
theorem unmarshalExpression_shape_dispatch_witness :
    unmarshalExpression (.obj [("value", .str "SUM(?)"), ("name", .str "x")]) =
      literalFromJson [("value", .str "SUM(?)"), ("name", .str "x")] ∧
    ∀ v, literalFromJson [("value", .str "SUM(?)"), ("name", .str "x")] = .ok v →
      ∃ s args, v = .vliteral s args := by
  constructor
  · exact ((unmarshalExpression_shape_dispatch.1 _).2.2.1
      (by decide) (by decide) (by decide))
  · exact fun v h => unmarshalExpression_shape_dispatch.2.2.1 _ v h

/-- Witness for C2: a node with `op`, `fieldName` and `start` is dispatched
to the RangeOp decoder, and any successful RangeOp decode is a RangeOp. -/
theorem unmarshalCondition_shape_dispatch_witness :
    unmarshalCondition (.obj [("op", .str "between"), ("fieldName", .str "price"),
        ("start", .num 100), ("end", .num 1000)]) =
      rangeOpFromJson [("op", .str "between"), ("fieldName", .str "price"),
        ("start", .num 100), ("end", .num 1000)] ∧
    ∀ v, rangeOpFromJson [("op", .str "between"), ("fieldName", .str "price"),
        ("start", .num 100), ("end", .num 1000)] = .ok v →
      ∃ op fn ta s e, v = .vrangeop op fn ta s e := by
  constructor
  · exact ((unmarshalCondition_shape_dispatch.1 _).1
      (by decide) (by decide) (by decide))
  · exact fun v h => unmarshalCondition_shape_dispatch.2.2.1 _ v h

/-- Counterexample for C1 as stated: a non-object node (the number `5`)
fails with the JSON unmarshal type error, not with the unknown-expression
error the claim asserts for "any other node". -/
theorem unmarshalExpression_nonobject_counterexample :
    unmarshalExpression (.num 5) =
      .error (.jsonType "map[string]json.RawMessage") ∧
    unmarshalExpression (.num 5) ≠ .error .unknownExpression ∧
    ∀ v, unmarshalExpression (.num 5) ≠ .ok v := by
  refine ⟨by simp [unmarshalExpression], by simp [unmarshalExpression], ?_⟩
  intro v
  simp [unmarshalExpression]

/-- An `omitempty` string struct field: omitted when empty. -/
def optStrField (k s : String) : List (String × Json) :=
  if s = "" then [] else [(k, .str s)]

mutual

/-- `json.Marshal` of a dynamic value, following each variant's marshaller:
`BoolOp`/`RangeOp`/`WhereGroup`/`Sort` have custom `MarshalJSON` (operators
mapped through the `…ToString` codecs), `Field`/`Literal`/`Case`/`Coalesce`
use the default struct marshal with the source's `omitempty` tags, scalars
and slices and maps marshal plainly.  Pointers, builders, relations and
backend atoms are outside the serialized fragment. -/
def marshalVal : GoVal → Json
  | .vnull => .null
  | .vbool b => .bool b
  | .vint n => .num n
  | .vstr s => .str s
  | .vlist xs => .arr (marshalList xs)
  | .vmap kvs => .obj (marshalKVs kvs)
  | .vfield n ta fa e =>
      .obj (optStrField "name" n ++ optStrField "tableAlias" ta ++
        optStrField "fieldAlias" fa ++
        (match e with | none => [] | some x => [("exp", marshalVal x)]))
  | .vliteral v args =>
      .obj ([("value", .str v)] ++
        (if args.isEmpty then [] else [("args", .arr (marshalList args))]))
  | .vcase arms els =>
      .obj ([("conditions", .arr (marshalArms arms))] ++
        (match els with | none => [] | some e => [("else", marshalVal e)]))
  | .vcoalesce fs d =>
      .obj ([("fields", .arr (marshalList fs))] ++
        (match d with | none => [] | some dv => [("defaultValue", marshalVal dv)]))
  | .vboolop op fn ta v =>
      .obj ([("op", .str (boolOpToString op)), ("fieldName", .str fn)] ++
        optStrField "tableAlias" ta ++ [("value", marshalVal v)])
  | .vrangeop op fn ta s e =>
      .obj ([("op", .str (rangeOpToString op)), ("fieldName", .str fn)] ++
        optStrField "tableAlias" ta ++
        [("start", marshalVal s), ("end", marshalVal e)])
  | .vwheregroup op cs =>
      .obj [("op", .str (expressionListTypeToString op)),
        ("conditions", .arr (marshalList cs))]
  | _ => .null
termination_by v => 4 * sizeOf v + 1
decreasing_by
  all_goals simp_wf
  all_goals omega

/-- Element loop of `json.Marshal` on slices. -/
def marshalList : List GoVal → List Json
  | [] => []
  | x :: rest => marshalVal x :: marshalList rest
termination_by xs => 4 * sizeOf xs
decreasing_by
  all_goals simp_wf
  all_goals omega

/-- Entry loop of `json.Marshal` on maps. -/
def marshalKVs : List (String × GoVal) → List (String × Json)
  | [] => []
  | (k, v) :: rest => (k, marshalVal v) :: marshalKVs rest
termination_by kvs => 4 * sizeOf kvs
decreasing_by
  all_goals simp_wf
  all_goals omega

/-- The `[]WhenThen` marshal: each arm is `{"when": …, "then": …}` (no
omitempty on either field). -/
def marshalArms : List (GoVal × GoVal) → List Json
  | [] => []
  | (w, t) :: rest =>
      .obj [("when", marshalVal w), ("then", marshalVal t)] :: marshalArms rest
termination_by arms => 4 * sizeOf arms
decreasing_by
  all_goals simp_wf
  all_goals omega

end

mutual

/-- Values whose plain `json.Marshal`/`json.Unmarshal`-into-`any` round
trip is the identity: scalars and (nested) sequences of them. -/
def rawRT : GoVal → Bool
  | .vnull => true
  | .vbool _ => true
  | .vint _ => true
  | .vstr _ => true
  | .vlist xs => rawRTList xs
  | _ => false
termination_by v => 2 * sizeOf v + 1
decreasing_by
  all_goals simp_wf
  all_goals omega

/-- Element loop of `rawRT`. -/
def rawRTList : List GoVal → Bool
  | [] => true
  | x :: rest => rawRT x && rawRTList rest
termination_by xs => 2 * sizeOf xs
decreasing_by
  all_goals simp_wf
  all_goals omega

end

mutual

/-- The serializable Condition fragment: conditions whose encode/decode
round trip is the identity.  The BoolOp operator must survive the string
codec (this excludes exactly the RegexpLike family and out-of-range
values, which marshal to `"eq"`); nested dynamic values must be
serializable value-position values; WhereGroup children recurse. -/
def serCond : GoVal → Bool
  | .vboolop op _ _ v =>
      (stringToBoolOp (boolOpToString op) == op) && serValue v
  | .vrangeop _ _ _ s e => serValue s && serValue e
  | .vwheregroup _ cs => serCondList cs
  | _ => false
termination_by v => 8 * sizeOf v + 2
decreasing_by
  all_goals simp_wf
  all_goals omega

/-- Children loop of `serCond`. -/
def serCondList : List GoVal → Bool
  | [] => true
  | x :: rest => serCond x && serCondList rest
termination_by xs => 8 * sizeOf xs + 1
decreasing_by
  all_goals simp_wf
  all_goals omega

/-- The serializable Expression fragment: a Field needs a non-empty name
(the shape sniffer keys on `name`); Literal args are value-position
values; a Case needs at least one arm (the Case trigger inspects the
first entry); Coalesce fields are plain fields and its default a raw
scalar (the default struct decode does not sniff it). -/
def serExpr : GoVal → Bool
  | .vfield n _ _ e => (n != "") && serOptExpr e
  | .vliteral _ args => serValueList args
  | .vcase arms els => (!arms.isEmpty) && serArms arms && serOptElse els
  | .vcoalesce fs d => serFieldList fs && serOptDefault d
  | _ => false
termination_by v => 8 * sizeOf v + 2
decreasing_by
  all_goals simp_wf
  all_goals omega

/-- An optional nested expression (`Field.Exp`). -/
def serOptExpr : Option GoVal → Bool
  | none => true
  | some e => serExpr e
termination_by o => 8 * sizeOf o + 1
decreasing_by
  all_goals simp_wf
  all_goals omega

/-- A serializable value-position value (`BoolOp.Value`, `RangeOp.Start`/
`End`, `Literal.Args` entries, `WhenThen.Then`): raw scalars/sequences,
serializable expressions, or RangeOps (whose encoding re-decodes through
the expression sniffer's `op`+`fieldName`+`start` clause).  Bare BoolOps
and WhereGroups are not value-serializable: a BoolOp's `value` key makes
its encoding re-decode as a Literal, and a WhereGroup's shape matches no
expression clause. -/
def serValue : GoVal → Bool
  | .vrangeop op fn ta s e => serCond (.vrangeop op fn ta s e)
  | v => rawRT v || serExpr v
termination_by v => 8 * sizeOf v + 3
decreasing_by
  all_goals simp_wf
  all_goals omega

/-- Args loop of `serValue`. -/
def serValueList : List GoVal → Bool
  | [] => true
  | x :: rest => serValue x && serValueList rest
termination_by xs => 8 * sizeOf xs + 1
decreasing_by
  all_goals simp_wf
  all_goals omega

/-- A serializable when-position value: a condition, an expression, or a
raw scalar (the decode chain tries them in that order). -/
def serWhen : GoVal → Bool
  | w => serCond w || serExpr w || rawRT w
termination_by w => 8 * sizeOf w + 4
decreasing_by
  all_goals simp_wf
  all_goals omega

/-- Case arms: when/then pairs. -/
def serArms : List (GoVal × GoVal) → Bool
  | [] => true
  | (w, t) :: rest => serWhen w && serValue t && serArms rest
termination_by arms => 8 * sizeOf arms + 1
decreasing_by
  all_goals simp_wf
  all_goals omega

/-- The optional Case `else`: absent, or a non-nil expression or raw
scalar. -/
def serOptElse : Option GoVal → Bool
  | none => true
  | some .vnull => false
  | some e => serExpr e || rawRT e
termination_by o => 8 * sizeOf o + 1
decreasing_by
  all_goals simp_wf
  all_goals omega

/-- Coalesce `Fields` entries: plain fields with serializable expressions
(these are decoded by `Field.UnmarshalJSON` directly, not by the sniffer,
so an empty name is fine here). -/
def serFieldList : List GoVal → Bool
  | [] => true
  | .vfield _ _ _ e :: rest => serOptExpr e && serFieldList rest
  | _ :: _ => false
termination_by xs => 8 * sizeOf xs + 1
decreasing_by
  all_goals simp_wf
  all_goals omega

/-- The optional Coalesce default: absent, or a non-nil raw scalar (its
decode is a plain `any` unmarshal). -/
def serOptDefault : Option GoVal → Bool
  | none => true
  | some .vnull => false
  | some d => rawRT d
termination_by o => 8 * sizeOf o
decreasing_by
  all_goals simp_wf
  all_goals omega

end

/-- Lookup distributes over concatenated field lists (first hit wins). -/
theorem lookupKey_append (l1 l2 : List (String × Json)) (k : String) :
    lookupKey (l1 ++ l2) k =
      match lookupKey l1 k with
      | some v => some v
      | none => lookupKey l2 k := by
  induction l1 with
  | nil => simp [lookupKey]
  | cons p rest ih =>
      obtain ⟨k', v⟩ := p
      by_cases h : k' = k <;> simp [lookupKey, h, ih]

/-- Lookup in an `omitempty` string field. -/
theorem lookupKey_optStrField (k' s k : String) :
    lookupKey (optStrField k' s) k =
      if k' = k ∧ s ≠ "" then some (.str s) else none := by
  unfold optStrField
  by_cases hs : s = "" <;> by_cases hk : k' = k <;> simp [lookupKey, hs, hk]

/-- An object without key `op` is an unknown condition. -/
theorem unmarshalCondition_no_op (kvs : List (String × Json))
    (h : lookupKey kvs "op" = none) :
    unmarshalCondition (.obj kvs) = .error .unknownCondition := by
  rw [unmarshalCondition, unmarshalConditionObj]
  simp [hasKey, h]

/-- The marshal of a raw scalar/sequence value is never an object, so both
shape sniffers fail on it (null yields the unknown-shape errors, the rest
JSON type errors). -/
theorem sniffers_fail_on_raw (v : GoVal) (h : rawRT v = true) :
    (unmarshalCondition (marshalVal v)).isOk = false ∧
    (unmarshalExpression (marshalVal v)).isOk = false := by
  cases v <;> simp [rawRT] at h <;>
    constructor <;>
      simp [marshalVal, unmarshalCondition, unmarshalExpression,
        unmarshalConditionObj, unmarshalExpressionObj, hasKey, lookupKey,
        caseTrigger, Except.isOk, Except.toBool]

/-- Bridge: a non-ok `Except` is some error. -/
theorem except_isOk_false {ε α : Type} {x : Except ε α} (h : x.isOk = false) :
    ∃ e, x = .error e := by
  cases x with
  | error e => exact ⟨e, rfl⟩
  | ok a => simp [Except.isOk, Except.toBool] at h

/-- Raw list decode round trip, given element facts. -/
theorem simpleDecodeList_marshal (xs : List GoVal)
    (h : ∀ x ∈ xs, simpleDecode (marshalVal x) = x) :
    simpleDecodeList (marshalList xs) = xs := by
  induction xs with
  | nil => rw [marshalList, simpleDecodeList]
  | cons x rest ih =>
      rw [marshalList, simpleDecodeList, h x (by simp),
        ih (fun y hy => h y (by simp [hy]))]

/-- Decoding the marshalled form of a serializable BoolOp restores it. -/
theorem boolOp_decode_marshal (op : BoolOperator) (fn ta : String) (v : GoVal)
    (hop : stringToBoolOp (boolOpToString op) = op)
    (hv : unmarshalValue (marshalVal v) = v) :
    unmarshalCondition (marshalVal (.vboolop op fn ta v)) =
      .ok (.vboolop op fn ta v) := by
  rw [marshalVal, unmarshalCondition, unmarshalConditionObj]
  rw [if_pos (by simp [hasKey, lookupKey, lookupKey_append, lookupKey_optStrField]),
    if_pos (by simp [hasKey, lookupKey, lookupKey_append, lookupKey_optStrField]),
    if_neg (by simp [hasKey, lookupKey, lookupKey_append, lookupKey_optStrField])]
  rw [boolOpFromJson]
  by_cases hta : ta = "" <;>
    simp [getStrField, lookupKey, lookupKey_append, lookupKey_optStrField,
      decodeRawValue, hv, hop, hta, bind, Except.bind, pure, Except.pure]

/-- Decoding the marshalled form of a serializable RangeOp restores it,
both through `unmarshalCondition` and through `unmarshalExpression`'s
clause 5 (value positions). -/
theorem rangeOp_decode_marshal (op : RangeOperator) (fn ta : String)
    (s e : GoVal)
    (hs : unmarshalValue (marshalVal s) = s)
    (he : unmarshalValue (marshalVal e) = e) :
    unmarshalCondition (marshalVal (.vrangeop op fn ta s e)) =
      .ok (.vrangeop op fn ta s e) ∧
    unmarshalExpression (marshalVal (.vrangeop op fn ta s e)) =
      .ok (.vrangeop op fn ta s e) := by
  have hop : stringToRangeOp (rangeOpToString op) = op := by
    cases op <;> rfl
  have hbody : rangeOpFromJson
      ([("op", .str (rangeOpToString op)), ("fieldName", .str fn)] ++
        optStrField "tableAlias" ta ++
        [("start", marshalVal s), ("end", marshalVal e)]) =
      .ok (.vrangeop op fn ta s e) := by
    rw [rangeOpFromJson]
    by_cases hta : ta = "" <;>
      simp [getStrField, lookupKey, lookupKey_append, lookupKey_optStrField,
        decodeRawValue, hs, he, hop, hta, bind, Except.bind, pure, Except.pure]
  constructor
  · rw [marshalVal, unmarshalCondition, unmarshalConditionObj]
    rw [if_pos (by simp [hasKey, lookupKey, lookupKey_append, lookupKey_optStrField]),
      if_pos (by simp [hasKey, lookupKey, lookupKey_append, lookupKey_optStrField]),
      if_pos (by simp [hasKey, lookupKey, lookupKey_append, lookupKey_optStrField])]
    exact hbody
  · rw [marshalVal, unmarshalExpression, unmarshalExpressionObj]
    rw [if_neg (by simp [caseTrigger, lookupKey, lookupKey_append, lookupKey_optStrField]),
      if_neg (by simp [hasKey, lookupKey, lookupKey_append, lookupKey_optStrField]),
      if_neg (by simp [hasKey, lookupKey, lookupKey_append, lookupKey_optStrField]),
      if_neg (by simp [hasKey, lookupKey, lookupKey_append, lookupKey_optStrField]),
      if_pos (by simp [hasKey, lookupKey, lookupKey_append, lookupKey_optStrField]),
      if_pos (by simp [hasKey, lookupKey, lookupKey_append, lookupKey_optStrField])]
    exact hbody

/-- Condition-list decode round trip, given element facts. -/
theorem decodeCondList_marshal (cs : List GoVal)
    (h : ∀ x ∈ cs, unmarshalCondition (marshalVal x) = .ok x) :
    ∀ i, decodeCondList (marshalList cs) i = .ok cs := by
  induction cs with
  | nil => intro i; rw [marshalList, decodeCondList]
  | cons x rest ih =>
      intro i
      rw [marshalList, decodeCondList, h x (by simp),
        ih (fun y hy => h y (by simp [hy])) (i + 1)]
      rfl

/-- Decoding the marshalled form of a serializable WhereGroup restores
it. -/
theorem whereGroup_decode_marshal (op : GroupOperator) (cs : List GoVal)
    (hconds : decodeCondList (marshalList cs) 0 = .ok cs) :
    unmarshalCondition (marshalVal (.vwheregroup op cs)) =
      .ok (.vwheregroup op cs) := by
  have hop : stringToExpressionListType (expressionListTypeToString op) = op := by
    cases op <;> rfl
  rw [marshalVal, unmarshalCondition, unmarshalConditionObj]
  rw [if_pos (by simp [hasKey, lookupKey]),
    if_neg (by simp [hasKey, lookupKey]),
    if_pos (by simp [hasKey, lookupKey])]
  rw [whereGroupFromJson]
  simp [getStrField, lookupKey, decodeCondsRaw, hconds, hop,
    bind, Except.bind, pure, Except.pure]

/-- `marshalArms` always produces an array of objects, so the
`[]map[string]any` view of a marshalled arm list always succeeds. -/
theorem objList_marshalArms (arms : List (GoVal × GoVal)) :
    objList (marshalArms arms) =
      some (arms.map (fun p => [("when", marshalVal p.1), ("then", marshalVal p.2)])) := by
  induction arms with
  | nil => simp [marshalArms, objList]
  | cons p rest ih =>
      obtain ⟨w, t⟩ := p
      rw [marshalArms]
      simp [objList, ih]

/-- `Field.UnmarshalJSON` applied to a field's marshalled key list restores
the field (no shape sniffing here, so the name may be empty): no-`Exp`
case. -/
theorem fieldFromJson_marshal_none (n ta fa : String) :
    fieldFromJson
      (optStrField "name" n ++ optStrField "tableAlias" ta ++
        optStrField "fieldAlias" fa) =
      .ok (.vfield n ta fa none) := by
  rw [fieldFromJson]
  by_cases hn : n = "" <;> by_cases hta : ta = "" <;> by_cases hfa : fa = "" <;>
    simp [getStrField, lookupKey, lookupKey_append, lookupKey_optStrField,
      decodeExpRaw, hn, hta, hfa, bind, Except.bind, pure, Except.pure]

/-- `Field.UnmarshalJSON` on a marshalled field carrying an `Exp`. -/
theorem fieldFromJson_marshal_some (n ta fa : String) (x : GoVal)
    (hx : unmarshalExpression (marshalVal x) = .ok x) :
    fieldFromJson
      (optStrField "name" n ++ optStrField "tableAlias" ta ++
        optStrField "fieldAlias" fa ++ [("exp", marshalVal x)]) =
      .ok (.vfield n ta fa (some x)) := by
  rw [fieldFromJson]
  by_cases hn : n = "" <;> by_cases hta : ta = "" <;> by_cases hfa : fa = "" <;>
    simp [getStrField, lookupKey, lookupKey_append, lookupKey_optStrField,
      decodeExpRaw, hx, hn, hta, hfa, bind, Except.bind, pure, Except.pure]

/-- Decoding the marshalled form of a serializable Field (non-empty name)
through the expression sniffer restores it. -/
theorem field_decode_marshal (n ta fa : String) (e : Option GoVal)
    (hn : n ≠ "")
    (he : ∀ x, e = some x → unmarshalExpression (marshalVal x) = .ok x) :
    unmarshalExpression (marshalVal (.vfield n ta fa e)) =
      .ok (.vfield n ta fa e) := by
  cases e with
  | none =>
      rw [marshalVal, unmarshalExpression, unmarshalExpressionObj]
      rw [if_neg (by
          simp [caseTrigger, lookupKey, lookupKey_append, lookupKey_optStrField]),
        if_neg (by
          simp [hasKey, lookupKey, lookupKey_append, lookupKey_optStrField]),
        if_neg (by
          simp [hasKey, lookupKey, lookupKey_append, lookupKey_optStrField]),
        if_pos (by
          simp [hasKey, lookupKey, lookupKey_append, lookupKey_optStrField, hn])]
      simpa using fieldFromJson_marshal_none n ta fa
  | some x =>
      have hx := he x rfl
      rw [marshalVal, unmarshalExpression, unmarshalExpressionObj]
      rw [if_neg (by
          simp [caseTrigger, lookupKey, lookupKey_append, lookupKey_optStrField]),
        if_neg (by
          simp [hasKey, lookupKey, lookupKey_append, lookupKey_optStrField]),
        if_neg (by
          simp [hasKey, lookupKey, lookupKey_append, lookupKey_optStrField]),
        if_pos (by
          simp [hasKey, lookupKey, lookupKey_append, lookupKey_optStrField, hn])]
      exact fieldFromJson_marshal_some n ta fa x hx

/-- Value-list decode round trip, given element facts. -/
theorem unmarshalValueList_marshal (xs : List GoVal)
    (h : ∀ x ∈ xs, unmarshalValue (marshalVal x) = x) :
    unmarshalValueList (marshalList xs) = xs := by
  induction xs with
  | nil => rw [marshalList, unmarshalValueList]
  | cons x rest ih =>
      rw [marshalList, unmarshalValueList, h x (by simp),
        ih (fun y hy => h y (by simp [hy]))]

/-- Decoding the marshalled form of a serializable Literal restores it. -/
theorem literal_decode_marshal (v : String) (args : List GoVal)
    (hargs : unmarshalValueList (marshalList args) = args) :
    unmarshalExpression (marshalVal (.vliteral v args)) =
      .ok (.vliteral v args) := by
  cases args with
  | nil =>
      rw [marshalVal, unmarshalExpression, unmarshalExpressionObj]
      rw [if_neg (by simp [caseTrigger, lookupKey]),
        if_neg (by simp [hasKey, lookupKey]),
        if_pos (by simp [hasKey, lookupKey])]
      rw [literalFromJson]
      simp [lookupKey, decodeArgsRaw, bind, Except.bind, pure, Except.pure]
  | cons a rest =>
      rw [marshalVal, unmarshalExpression, unmarshalExpressionObj]
      rw [if_neg (by simp [caseTrigger, lookupKey]),
        if_neg (by simp [hasKey, lookupKey]),
        if_pos (by simp [hasKey, lookupKey])]
      rw [literalFromJson]
      rw [marshalList] at hargs
      simp [lookupKey, decodeArgsRaw, marshalList, hargs,
        bind, Except.bind, pure, Except.pure]

/-- WhenThen-list decode round trip, given per-arm facts. -/
theorem whenThenList_marshal (arms : List (GoVal × GoVal))
    (h : ∀ p ∈ arms, whenDecode (marshalVal p.1) = p.1 ∧
      unmarshalValue (marshalVal p.2) = p.2) :
    whenThenList (marshalArms arms) = .ok arms := by
  induction arms with
  | nil => rw [marshalArms, whenThenList]
  | cons p rest ih =>
      obtain ⟨w, t⟩ := p
      have hp := h (w, t) (by simp)
      rw [marshalArms, whenThenList, whenThenFromJson]
      rw [ih (fun q hq => h q (by simp [hq]))]
      simp [hp.1, hp.2, lookupKey, decodeWhenRaw, decodeRawValue,
        bind, Except.bind, pure, Except.pure]

/-- The Case trigger fires on the marshal of a non-empty arm list. -/
theorem caseTrigger_marshal (arms : List (GoVal × GoVal)) (hne : arms ≠ [])
    (rest : List (String × Json)) :
    caseTrigger (("conditions", .arr (marshalArms arms)) :: rest) = true := by
  cases arms with
  | nil => exact absurd rfl hne
  | cons p tl =>
      obtain ⟨w, t⟩ := p
      rw [marshalArms]
      simp [caseTrigger, lookupKey, asObjList, objList, objList_marshalArms,
        hasKey]

/-- Decoding the marshalled form of a serializable Case restores it (no
`else`). -/
theorem case_decode_marshal_none (arms : List (GoVal × GoVal))
    (hne : arms ≠ [])
    (harms : whenThenList (marshalArms arms) = .ok arms) :
    unmarshalExpression (marshalVal (.vcase arms none)) =
      .ok (.vcase arms none) := by
  rw [marshalVal, unmarshalExpression, unmarshalExpressionObj]
  rw [if_pos (by simpa using caseTrigger_marshal arms hne [])]
  rw [caseFromJson]
  simp [lookupKey, decodeWhenThensRaw, harms, decodeElseRaw,
    bind, Except.bind, pure, Except.pure]

/-- Decoding the marshalled form of a serializable Case with an `else`
restores it. -/
theorem case_decode_marshal_some (arms : List (GoVal × GoVal)) (e : GoVal)
    (hne : arms ≠ [])
    (harms : whenThenList (marshalArms arms) = .ok arms)
    (hels : decodeElseRaw (some (marshalVal e)) = some e) :
    unmarshalExpression (marshalVal (.vcase arms (some e))) =
      .ok (.vcase arms (some e)) := by
  rw [marshalVal, unmarshalExpression, unmarshalExpressionObj]
  rw [if_pos (by simpa using caseTrigger_marshal arms hne [("else", marshalVal e)])]
  rw [caseFromJson]
  simp [lookupKey, decodeWhenThensRaw, harms, hels,
    bind, Except.bind, pure, Except.pure]

/-- Field-list decode round trip (Coalesce's `Fields`), given per-entry
facts. -/
theorem fieldList_marshal (fs : List GoVal)
    (h : ∀ f ∈ fs, fieldFromJsonJ (marshalVal f) = .ok f) :
    fieldList (marshalList fs) = .ok fs := by
  induction fs with
  | nil => rw [marshalList, fieldList]
  | cons f rest ih =>
      rw [marshalList, fieldList, h f (by simp),
        ih (fun g hg => h g (by simp [hg]))]
      rfl

/-- Decoding the marshalled form of a serializable Coalesce restores it
(no default). -/
theorem coalesce_decode_marshal_none (fs : List GoVal)
    (hfs : fieldList (marshalList fs) = .ok fs) :
    unmarshalExpression (marshalVal (.vcoalesce fs none)) =
      .ok (.vcoalesce fs none) := by
  rw [marshalVal, unmarshalExpression, unmarshalExpressionObj]
  rw [if_neg (by simp [caseTrigger, lookupKey]),
    if_pos (by simp [hasKey, lookupKey])]
  rw [coalesceFromJson]
  simp [lookupKey, decodeFieldsRaw, hfs, bind, Except.bind, pure, Except.pure]

/-- Decoding the marshalled form of a serializable Coalesce with a raw
non-nil default restores it. -/
theorem coalesce_decode_marshal_some (fs : List GoVal) (dv : GoVal)
    (hfs : fieldList (marshalList fs) = .ok fs)
    (hdv : simpleDecode (marshalVal dv) = dv) (hnn : dv ≠ .vnull) :
    unmarshalExpression (marshalVal (.vcoalesce fs (some dv))) =
      .ok (.vcoalesce fs (some dv)) := by
  rw [marshalVal, unmarshalExpression, unmarshalExpressionObj]
  rw [if_neg (by simp [caseTrigger, lookupKey]),
    if_pos (by simp [hasKey, lookupKey])]
  rw [coalesceFromJson]
  simp only [lookupKey, List.cons_append, List.nil_append]
  simp [decodeFieldsRaw, hfs, hdv, bind, Except.bind, pure, Except.pure]

/-- The marshal of a serializable Expression is an object without key
`op`, so `unmarshalCondition` rejects it and the when-position fallback
moves on to the expression decode. -/
theorem exprMarshal_obj_no_op (w : GoVal) (h : serExpr w = true) :
    ∃ kvs, marshalVal w = .obj kvs ∧ lookupKey kvs "op" = none := by
  cases w
  all_goals try (simp [serExpr] at h)
  case vfield n ta fa e =>
      cases e with
      | none =>
          exact ⟨_, by rw [marshalVal],
            by simp [lookupKey, lookupKey_append, lookupKey_optStrField]⟩
      | some x =>
          exact ⟨_, by rw [marshalVal],
            by simp [lookupKey, lookupKey_append, lookupKey_optStrField]⟩
  case vliteral v args =>
      cases args with
      | nil =>
          exact ⟨_, by rw [marshalVal], by simp [lookupKey]⟩
      | cons a rest =>
          exact ⟨_, by rw [marshalVal], by simp [lookupKey]⟩
  case vcase arms els =>
      cases els with
      | none => exact ⟨_, by rw [marshalVal], by simp [lookupKey]⟩
      | some e => exact ⟨_, by rw [marshalVal], by simp [lookupKey]⟩
  case vcoalesce fs d =>
      cases d with
      | none => exact ⟨_, by rw [marshalVal], by simp [lookupKey]⟩
      | some dv => exact ⟨_, by rw [marshalVal], by simp [lookupKey]⟩

/-- The when-position decode of a marshalled expression falls through the
condition attempt and succeeds as an expression. -/
theorem whenDecode_marshal_expr (w : GoVal) (hser : serExpr w = true)
    (he : unmarshalExpression (marshalVal w) = .ok w) :
    whenDecode (marshalVal w) = w := by
  obtain ⟨kvs, hm, hop⟩ := exprMarshal_obj_no_op w hser
  rw [whenDecode, hm, unmarshalCondition_no_op kvs hop, ← hm, he]

/-- The when-position decode of a marshalled raw scalar falls through both
sniffers to the raw decode. -/
theorem whenDecode_marshal_raw (w : GoVal) (hraw : rawRT w = true)
    (hs : simpleDecode (marshalVal w) = w) :
    whenDecode (marshalVal w) = w := by
  obtain ⟨hc, he⟩ := sniffers_fail_on_raw w hraw
  obtain ⟨e1, he1⟩ := except_isOk_false hc
  obtain ⟨e2, he2⟩ := except_isOk_false he
  rw [whenDecode, he1, he2, hs]

/-- The value-position decode of a marshalled raw scalar falls through the
expression sniffer to the raw decode. -/
theorem unmarshalValue_marshal_raw (w : GoVal) (hraw : rawRT w = true)
    (hs : simpleDecode (marshalVal w) = w) :
    unmarshalValue (marshalVal w) = w := by
  obtain ⟨_, he⟩ := sniffers_fail_on_raw w hraw
  obtain ⟨e2, he2⟩ := except_isOk_false he
  rw [unmarshalValue, he2, hs]

/-- Membership view of `rawRTList`. -/
theorem rawRTList_mem {xs : List GoVal} (h : rawRTList xs = true) :
    ∀ x ∈ xs, rawRT x = true := by
  induction xs with
  | nil => intro x hx; simp at hx
  | cons a rest ih =>
      rw [rawRTList] at h
      simp at h
      intro x hx
      rcases List.mem_cons.mp hx with rfl | hx
      · exact h.1
      · exact ih h.2 x hx

/-- Membership view of `serCondList`. -/
theorem serCondList_mem {xs : List GoVal} (h : serCondList xs = true) :
    ∀ x ∈ xs, serCond x = true := by
  induction xs with
  | nil => intro x hx; simp at hx
  | cons a rest ih =>
      rw [serCondList] at h
      simp at h
      intro x hx
      rcases List.mem_cons.mp hx with rfl | hx
      · exact h.1
      · exact ih h.2 x hx

/-- Membership view of `serValueList`. -/
theorem serValueList_mem {xs : List GoVal} (h : serValueList xs = true) :
    ∀ x ∈ xs, serValue x = true := by
  induction xs with
  | nil => intro x hx; simp at hx
  | cons a rest ih =>
      rw [serValueList] at h
      simp at h
      intro x hx
      rcases List.mem_cons.mp hx with rfl | hx
      · exact h.1
      · exact ih h.2 x hx

/-- Membership view of `serArms`. -/
theorem serArms_mem {arms : List (GoVal × GoVal)} (h : serArms arms = true) :
    ∀ p ∈ arms, serWhen p.1 = true ∧ serValue p.2 = true := by
  induction arms with
  | nil => intro p hp; simp at hp
  | cons a rest ih =>
      obtain ⟨w, t⟩ := a
      rw [serArms] at h
      simp at h
      intro p hp
      rcases List.mem_cons.mp hp with rfl | hp
      · exact ⟨h.1.1, h.1.2⟩
      · exact ih h.2 p hp

/-- Membership/shape view of `serFieldList`: every entry is a field with a
serializable optional expression. -/
theorem serFieldList_mem {xs : List GoVal} (h : serFieldList xs = true) :
    ∀ f ∈ xs, ∃ n ta fa e, f = GoVal.vfield n ta fa e ∧ serOptExpr e = true := by
  induction xs with
  | nil => intro f hf; simp at hf
  | cons a rest ih =>
      intro f hf
      cases a
      all_goals simp [serFieldList] at h
      case vfield n ta fa e =>
        rcases List.mem_cons.mp hf with rfl | hf
        · exact ⟨n, ta, fa, e, rfl, h.1⟩
        · exact ih h.2 f hf

/-- Shape view of `serOptElse` on a present `else`: the value is non-nil
and either a serializable expression or a raw scalar. -/
theorem serOptElse_some {e : GoVal} (h : serOptElse (some e) = true) :
    e ≠ .vnull ∧ (serExpr e = true ∨ rawRT e = true) := by
  cases e <;> simp [serOptElse] at h <;> exact ⟨by simp, h⟩

/-- Shape view of `serOptDefault` on a present default: non-nil and raw. -/
theorem serOptDefault_some {d : GoVal} (h : serOptDefault (some d) = true) :
    d ≠ .vnull ∧ rawRT d = true := by
  cases d <;> simp [serOptDefault] at h <;> exact ⟨by simp, h⟩

/-- The `else` decode of a marshalled non-nil expression restores it. -/
theorem decodeElseRaw_marshal_expr (e : GoVal) (hnn : e ≠ .vnull)
    (h : unmarshalExpression (marshalVal e) = .ok e) :
    decodeElseRaw (some (marshalVal e)) = some e := by
  rw [decodeElseRaw, h]
  cases e <;> first | rfl | exact absurd rfl hnn

/-- The `else` decode of a marshalled non-nil raw scalar falls through the
expression attempt to the raw decode and restores it. -/
theorem decodeElseRaw_marshal_raw (e : GoVal) (hnn : e ≠ .vnull)
    (hraw : rawRT e = true) (hs : simpleDecode (marshalVal e) = e) :
    decodeElseRaw (some (marshalVal e)) = some e := by
  obtain ⟨_, hef⟩ := sniffers_fail_on_raw e hraw
  obtain ⟨e2, he2⟩ := except_isOk_false hef
  rw [decodeElseRaw, he2, hs]
  cases e <;> first | rfl | exact absurd rfl hnn

/-- A `[]Field` entry decode of a marshalled field restores it. -/
theorem fieldFromJsonJ_marshal (nm ta fa : String) (e : Option GoVal)
    (he : ∀ x, e = some x → unmarshalExpression (marshalVal x) = .ok x) :
    fieldFromJsonJ (marshalVal (.vfield nm ta fa e)) =
      .ok (.vfield nm ta fa e) := by
  cases e with
  | none =>
      rw [marshalVal, fieldFromJsonJ]
      simpa using fieldFromJson_marshal_none nm ta fa
  | some x =>
      rw [marshalVal, fieldFromJsonJ]
      exact fieldFromJson_marshal_some nm ta fa x (he x rfl)

/-- Values outside every serializable fragment satisfy the five round-trip
implications vacuously. -/
theorem roundTrip_vacuous (v : GoVal)
    (hc : serCond v = false) (he : serExpr v = false) (hr : rawRT v = false)
    (hv : serValue v = false) (hw : serWhen v = false) :
    (serCond v = true → unmarshalCondition (marshalVal v) = .ok v) ∧
    (serExpr v = true → unmarshalExpression (marshalVal v) = .ok v) ∧
    (rawRT v = true → simpleDecode (marshalVal v) = v) ∧
    (serValue v = true → unmarshalValue (marshalVal v) = v) ∧
    (serWhen v = true → whenDecode (marshalVal v) = v) := by
  refine ⟨fun h => ?_, fun h => ?_, fun h => ?_, fun h => ?_, fun h => ?_⟩
  · rw [hc] at h; exact absurd h (by simp)
  · rw [he] at h; exact absurd h (by simp)
  · rw [hr] at h; exact absurd h (by simp)
  · rw [hv] at h; exact absurd h (by simp)
  · rw [hw] at h; exact absurd h (by simp)

/-- Round-trip master induction (on a size bound): on the serializable
fragments, decoding the marshalled form restores the value, at each of the
five syntactic positions a value can occupy (condition, expression, raw
scalar, value position, when position). -/
theorem roundTrip_aux : ∀ (n : Nat) (v : GoVal), sizeOf v ≤ n →
    (serCond v = true → unmarshalCondition (marshalVal v) = .ok v) ∧
    (serExpr v = true → unmarshalExpression (marshalVal v) = .ok v) ∧
    (rawRT v = true → simpleDecode (marshalVal v) = v) ∧
    (serValue v = true → unmarshalValue (marshalVal v) = v) ∧
    (serWhen v = true → whenDecode (marshalVal v) = v) := by
  intro n
  induction n with
  | zero =>
      intro v hv
      exfalso
      cases v <;> simp at hv <;> omega
  | succ n IH =>
      intro v hv
      have IHc : ∀ w, sizeOf w ≤ n → serCond w = true →
          unmarshalCondition (marshalVal w) = .ok w :=
        fun w hw h => (IH w hw).1 h
      have IHe : ∀ w, sizeOf w ≤ n → serExpr w = true →
          unmarshalExpression (marshalVal w) = .ok w :=
        fun w hw h => (IH w hw).2.1 h
      have IHr : ∀ w, sizeOf w ≤ n → rawRT w = true →
          simpleDecode (marshalVal w) = w :=
        fun w hw h => (IH w hw).2.2.1 h
      have IHv : ∀ w, sizeOf w ≤ n → serValue w = true →
          unmarshalValue (marshalVal w) = w :=
        fun w hw h => (IH w hw).2.2.2.1 h
      have IHw : ∀ w, sizeOf w ≤ n → serWhen w = true →
          whenDecode (marshalVal w) = w :=
        fun w hw h => (IH w hw).2.2.2.2 h
      cases v with
      | vnull =>
          have hR : simpleDecode (marshalVal .vnull) = .vnull := by
            simp [marshalVal, simpleDecode]
          exact ⟨fun h => by simp [serCond] at h,
            fun h => by simp [serExpr] at h,
            fun _ => hR,
            fun _ => unmarshalValue_marshal_raw _ (by simp [rawRT]) hR,
            fun _ => whenDecode_marshal_raw _ (by simp [rawRT]) hR⟩
      | vbool b =>
          have hR : simpleDecode (marshalVal (.vbool b)) = .vbool b := by
            simp [marshalVal, simpleDecode]
          exact ⟨fun h => by simp [serCond] at h,
            fun h => by simp [serExpr] at h,
            fun _ => hR,
            fun _ => unmarshalValue_marshal_raw _ (by simp [rawRT]) hR,
            fun _ => whenDecode_marshal_raw _ (by simp [rawRT]) hR⟩
      | vint m =>
          have hR : simpleDecode (marshalVal (.vint m)) = .vint m := by
            simp [marshalVal, simpleDecode]
          exact ⟨fun h => by simp [serCond] at h,
            fun h => by simp [serExpr] at h,
            fun _ => hR,
            fun _ => unmarshalValue_marshal_raw _ (by simp [rawRT]) hR,
            fun _ => whenDecode_marshal_raw _ (by simp [rawRT]) hR⟩
      | vstr st =>
          have hR : simpleDecode (marshalVal (.vstr st)) = .vstr st := by
            simp [marshalVal, simpleDecode]
          exact ⟨fun h => by simp [serCond] at h,
            fun h => by simp [serExpr] at h,
            fun _ => hR,
            fun _ => unmarshalValue_marshal_raw _ (by simp [rawRT]) hR,
            fun _ => whenDecode_marshal_raw _ (by simp [rawRT]) hR⟩
      | vlist xs =>
          have hR : rawRTList xs = true →
              simpleDecode (marshalVal (.vlist xs)) = .vlist xs := by
            intro hml
            have helem : ∀ x ∈ xs, simpleDecode (marshalVal x) = x := by
              intro x hx
              have hlt := List.sizeOf_lt_of_mem hx
              have hsz : sizeOf x ≤ n := by simp at hv; omega
              exact IHr x hsz (rawRTList_mem hml x hx)
            simp [marshalVal, simpleDecode, simpleDecodeList_marshal xs helem]
          refine ⟨fun h => by simp [serCond] at h,
            fun h => by simp [serExpr] at h, fun h => ?_, fun h => ?_, fun h => ?_⟩
          · rw [rawRT] at h
            exact hR h
          · have hml : rawRTList xs = true := by
              simp [serValue, serExpr, rawRT] at h
              exact h
            exact unmarshalValue_marshal_raw _ (by rw [rawRT]; exact hml) (hR hml)
          · have hml : rawRTList xs = true := by
              simp [serWhen, serCond, serExpr, rawRT] at h
              exact h
            exact whenDecode_marshal_raw _ (by rw [rawRT]; exact hml) (hR hml)
      | vmap kvs =>
          exact roundTrip_vacuous _ (by simp [serCond]) (by simp [serExpr])
            (by simp [rawRT]) (by simp [serValue, serExpr, rawRT])
            (by simp [serWhen, serCond, serExpr, rawRT])
      | vptr p =>
          exact roundTrip_vacuous _ (by simp [serCond]) (by simp [serExpr])
            (by simp [rawRT]) (by simp [serValue, serExpr, rawRT])
            (by simp [serWhen, serCond, serExpr, rawRT])
      | vfield nm ta fa e =>
          have hE : serExpr (.vfield nm ta fa e) = true →
              unmarshalExpression (marshalVal (.vfield nm ta fa e)) =
                .ok (.vfield nm ta fa e) := by
            intro h
            rw [serExpr] at h
            simp at h
            refine field_decode_marshal nm ta fa e h.1 ?_
            intro x hx
            subst hx
            have hse : serExpr x = true := by
              have h2 := h.2
              rwa [serOptExpr] at h2
            have hsz : sizeOf x ≤ n := by simp at hv; omega
            exact IHe x hsz hse
          refine ⟨fun h => by simp [serCond] at h, hE,
            fun h => by simp [rawRT] at h, fun h => ?_, fun h => ?_⟩
          · have hse : serExpr (.vfield nm ta fa e) = true := by
              simp [serValue, rawRT] at h
              exact h
            simp [unmarshalValue, hE hse]
          · have hse : serExpr (.vfield nm ta fa e) = true := by
              simp [serWhen, serCond, rawRT] at h
              exact h
            exact whenDecode_marshal_expr _ hse (hE hse)
      | vliteral st args =>
          have hE : serExpr (.vliteral st args) = true →
              unmarshalExpression (marshalVal (.vliteral st args)) =
                .ok (.vliteral st args) := by
            intro h
            rw [serExpr] at h
            have helem : ∀ x ∈ args, unmarshalValue (marshalVal x) = x := by
              intro x hx
              have hlt := List.sizeOf_lt_of_mem hx
              have hsz : sizeOf x ≤ n := by simp at hv; omega
              exact IHv x hsz (serValueList_mem h x hx)
            exact literal_decode_marshal st args (unmarshalValueList_marshal args helem)
          refine ⟨fun h => by simp [serCond] at h, hE,
            fun h => by simp [rawRT] at h, fun h => ?_, fun h => ?_⟩
          · have hse : serExpr (.vliteral st args) = true := by
              simp [serValue, rawRT] at h
              exact h
            simp [unmarshalValue, hE hse]
          · have hse : serExpr (.vliteral st args) = true := by
              simp [serWhen, serCond, rawRT] at h
              exact h
            exact whenDecode_marshal_expr _ hse (hE hse)
      | vcase arms els =>
          have hE : serExpr (.vcase arms els) = true →
              unmarshalExpression (marshalVal (.vcase arms els)) =
                .ok (.vcase arms els) := by
            intro h
            rw [serExpr] at h
            simp only [Bool.and_eq_true] at h
            obtain ⟨⟨hne2, harms⟩, hels⟩ := h
            have hne : arms ≠ [] := by
              intro hnil
              subst hnil
              simp at hne2
            have harm : ∀ p ∈ arms, whenDecode (marshalVal p.1) = p.1 ∧
                unmarshalValue (marshalVal p.2) = p.2 := by
              intro p hp
              have hmem := serArms_mem harms p hp
              have hlt := List.sizeOf_lt_of_mem hp
              obtain ⟨w, t⟩ := p
              have hwt : sizeOf w ≤ n ∧ sizeOf t ≤ n := by
                simp at hv hlt
                omega
              exact ⟨IHw w hwt.1 hmem.1, IHv t hwt.2 hmem.2⟩
            have hlist := whenThenList_marshal arms harm
            cases els with
            | none => exact case_decode_marshal_none arms hne hlist
            | some e =>
                have hsz : sizeOf e ≤ n := by simp at hv; omega
                obtain ⟨hnn, hor⟩ := serOptElse_some hels
                have he : decodeElseRaw (some (marshalVal e)) = some e := by
                  rcases hor with hse | hraw
                  · exact decodeElseRaw_marshal_expr e hnn (IHe e hsz hse)
                  · exact decodeElseRaw_marshal_raw e hnn hraw (IHr e hsz hraw)
                exact case_decode_marshal_some arms e hne hlist he
          refine ⟨fun h => by simp [serCond] at h, hE,
            fun h => by simp [rawRT] at h, fun h => ?_, fun h => ?_⟩
          · have hse : serExpr (.vcase arms els) = true := by
              simp [serValue, rawRT] at h
              exact h
            simp [unmarshalValue, hE hse]
          · have hse : serExpr (.vcase arms els) = true := by
              simp [serWhen, serCond, rawRT] at h
              exact h
            exact whenDecode_marshal_expr _ hse (hE hse)
      | vcoalesce fs d =>
          have hE : serExpr (.vcoalesce fs d) = true →
              unmarshalExpression (marshalVal (.vcoalesce fs d)) =
                .ok (.vcoalesce fs d) := by
            intro h
            rw [serExpr] at h
            simp only [Bool.and_eq_true] at h
            obtain ⟨hfs, hd⟩ := h
            have hflist : fieldList (marshalList fs) = .ok fs := by
              refine fieldList_marshal fs ?_
              intro f hf
              obtain ⟨nm, ta, fa, e, rfl, hse⟩ := serFieldList_mem hfs f hf
              have hlt := List.sizeOf_lt_of_mem hf
              refine fieldFromJsonJ_marshal nm ta fa e ?_
              intro x hx
              subst hx
              have hsx : serExpr x = true := by rwa [serOptExpr] at hse
              have hszx : sizeOf x ≤ n := by
                simp at hv hlt
                omega
              exact IHe x hszx hsx
            cases d with
            | none => exact coalesce_decode_marshal_none fs hflist
            | some dv =>
                obtain ⟨hnn, hraw⟩ := serOptDefault_some hd
                have hszd : sizeOf dv ≤ n := by simp at hv; omega
                exact coalesce_decode_marshal_some fs dv hflist (IHr dv hszd hraw) hnn
          refine ⟨fun h => by simp [serCond] at h, hE,
            fun h => by simp [rawRT] at h, fun h => ?_, fun h => ?_⟩
          · have hse : serExpr (.vcoalesce fs d) = true := by
              simp [serValue, rawRT] at h
              exact h
            simp [unmarshalValue, hE hse]
          · have hse : serExpr (.vcoalesce fs d) = true := by
              simp [serWhen, serCond, rawRT] at h
              exact h
            exact whenDecode_marshal_expr _ hse (hE hse)
      | vboolop op fn ta w =>
          have hC : serCond (.vboolop op fn ta w) = true →
              unmarshalCondition (marshalVal (.vboolop op fn ta w)) =
                .ok (.vboolop op fn ta w) := by
            intro h
            rw [serCond] at h
            simp only [Bool.and_eq_true, beq_iff_eq] at h
            obtain ⟨hop, hval⟩ := h
            have hsz : sizeOf w ≤ n := by simp at hv; omega
            exact boolOp_decode_marshal op fn ta w hop (IHv w hsz hval)
          refine ⟨hC, fun h => by simp [serExpr] at h,
            fun h => by simp [rawRT] at h,
            fun h => by simp [serValue, serExpr, rawRT] at h, fun h => ?_⟩
          · have hsc : serCond (.vboolop op fn ta w) = true := by
              simp [serWhen, serExpr, rawRT] at h
              exact h
            simp [whenDecode, hC hsc]
      | vrangeop op fn ta s e =>
          have hV2 : serCond (.vrangeop op fn ta s e) = true →
              unmarshalValue (marshalVal s) = s ∧
                unmarshalValue (marshalVal e) = e := by
            intro h
            rw [serCond] at h
            simp only [Bool.and_eq_true] at h
            have hsz : sizeOf s ≤ n ∧ sizeOf e ≤ n := by simp at hv; omega
            exact ⟨IHv s hsz.1 h.1, IHv e hsz.2 h.2⟩
          have hC : serCond (.vrangeop op fn ta s e) = true →
              unmarshalCondition (marshalVal (.vrangeop op fn ta s e)) =
                .ok (.vrangeop op fn ta s e) :=
            fun h => (rangeOp_decode_marshal op fn ta s e (hV2 h).1 (hV2 h).2).1
          have hE : serCond (.vrangeop op fn ta s e) = true →
              unmarshalExpression (marshalVal (.vrangeop op fn ta s e)) =
                .ok (.vrangeop op fn ta s e) :=
            fun h => (rangeOp_decode_marshal op fn ta s e (hV2 h).1 (hV2 h).2).2
          refine ⟨hC, fun h => by simp [serExpr] at h,
            fun h => by simp [rawRT] at h, fun h => ?_, fun h => ?_⟩
          · have hsc : serCond (.vrangeop op fn ta s e) = true := by
              rw [serValue] at h
              exact h
            simp [unmarshalValue, hE hsc]
          · have hsc : serCond (.vrangeop op fn ta s e) = true := by
              simp [serWhen, serExpr, rawRT] at h
              exact h
            simp [whenDecode, hC hsc]
      | vwheregroup gop cs =>
          have hC : serCond (.vwheregroup gop cs) = true →
              unmarshalCondition (marshalVal (.vwheregroup gop cs)) =
                .ok (.vwheregroup gop cs) := by
            intro h
            rw [serCond] at h
            have helem : ∀ x ∈ cs, unmarshalCondition (marshalVal x) = .ok x := by
              intro x hx
              have hlt := List.sizeOf_lt_of_mem hx
              have hsz : sizeOf x ≤ n := by simp at hv; omega
              exact IHc x hsz (serCondList_mem h x hx)
            exact whereGroup_decode_marshal gop cs (decodeCondList_marshal cs helem 0)
          refine ⟨hC, fun h => by simp [serExpr] at h,
            fun h => by simp [rawRT] at h,
            fun h => by simp [serValue, serExpr, rawRT] at h, fun h => ?_⟩
          · have hsc : serCond (.vwheregroup gop cs) = true := by
              simp [serWhen, serExpr, rawRT] at h
              exact h
            simp [whenDecode, hC hsc]
      | vbuilder dl tn tb rs fl ws so gb li off =>
          exact roundTrip_vacuous _ (by simp [serCond]) (by simp [serExpr])
            (by simp [rawRT]) (by simp [serValue, serExpr, rawRT])
            (by simp [serWhen, serCond, serExpr, rawRT])
      | vrelation jt tn tb srs ons =>
          exact roundTrip_vacuous _ (by simp [serCond]) (by simp [serExpr])
            (by simp [rawRT]) (by simp [serValue, serExpr, rawRT])
            (by simp [serWhen, serCond, serExpr, rawRT])
      | vatom k =>
          exact roundTrip_vacuous _ (by simp [serCond]) (by simp [serExpr])
            (by simp [rawRT]) (by simp [serValue, serExpr, rawRT])
            (by simp [serWhen, serCond, serExpr, rawRT])

/-- C7 (corrected): on the serializable fragment — conditions whose BoolOp
operators are among the fourteen string-mapped ones (the RegexpLike family
is excluded: `boolOpToString` sends it to `"eq"`), whose nested values are
raw scalars/sequences, serializable expressions or RangeOps (not bare
BoolOps or WhereGroups), Cases with at least one arm and a non-nil
serializable `else`, Coalesces with plain fields and a non-nil raw
default, and Fields in expression position with a non-empty name —
decoding the result of encoding (JSON marshal, then the shape-sniffing
unmarshal of the same node kind) restores the value exactly, numbers being
modelled as integers throughout. -/
theorem decode_encode_roundtrip (x : GoVal) :
    (serCond x = true → unmarshalCondition (marshalVal x) = .ok x) ∧
    (serExpr x = true → unmarshalExpression (marshalVal x) = .ok x) := by
  have h := roundTrip_aux (sizeOf x) x (le_refl _)
  exact ⟨h.1, h.2.1⟩

/-- Witness for C7: a two-level Or-group (an In over a mixed list and a
Between) round trips through the condition decoder, and a one-armed Case
with a Literal `else` round trips through the expression decoder. -/
theorem decode_encode_roundtrip_witness :
    (serCond (.vwheregroup .orType
        [.vboolop .inOp "status" "" (.vlist [.vstr "a", .vint 2]),
         .vrangeop .betweenOp "age" "t" (.vint 1) (.vint 9)]) = true ∧
      unmarshalCondition (marshalVal (.vwheregroup .orType
        [.vboolop .inOp "status" "" (.vlist [.vstr "a", .vint 2]),
         .vrangeop .betweenOp "age" "t" (.vint 1) (.vint 9)])) =
        .ok (.vwheregroup .orType
          [.vboolop .inOp "status" "" (.vlist [.vstr "a", .vint 2]),
           .vrangeop .betweenOp "age" "t" (.vint 1) (.vint 9)])) ∧
    (serExpr (.vcase [(.vboolop .eqOp "x" "" .vnull, .vstr "yes")]
        (some (.vliteral "NOW()" []))) = true ∧
      unmarshalExpression (marshalVal (.vcase
          [(.vboolop .eqOp "x" "" .vnull, .vstr "yes")]
          (some (.vliteral "NOW()" [])))) =
        .ok (.vcase [(.vboolop .eqOp "x" "" .vnull, .vstr "yes")]
          (some (.vliteral "NOW()" [])))) := by
  have h1 : serCond (.vwheregroup .orType
      [.vboolop .inOp "status" "" (.vlist [.vstr "a", .vint 2]),
       .vrangeop .betweenOp "age" "t" (.vint 1) (.vint 9)]) = true := by
    simp [serCond, serCondList, serValue, rawRT, rawRTList,
      boolOpToString, stringToBoolOp]
  have h2 : serExpr (.vcase [(.vboolop .eqOp "x" "" .vnull, .vstr "yes")]
      (some (.vliteral "NOW()" []))) = true := by
    simp [serExpr, serArms, serWhen, serCond, serValue, serValueList,
      serOptElse, rawRT, boolOpToString, stringToBoolOp]
  exact ⟨⟨h1, (decode_encode_roundtrip _).1 h1⟩,
    ⟨h2, (decode_encode_roundtrip _).2 h2⟩⟩

/-- Counterexample to C7 as stated: a BoolOp carrying a RegexpLike operator
does not round trip — `boolOpToString` has no case for the Regexp family
and marshals the operator as `"eq"`, so decoding yields an Eq condition
instead of the original. -/
theorem regexp_boolop_roundtrip_fails :
    unmarshalCondition (marshalVal
        (.vboolop .regexpLikeOp "name" "" (.vstr "^a"))) =
      .ok (.vboolop .eqOp "name" "" (.vstr "^a")) ∧
    unmarshalCondition (marshalVal
        (.vboolop .regexpLikeOp "name" "" (.vstr "^a"))) ≠
      .ok (.vboolop .regexpLikeOp "name" "" (.vstr "^a")) := by
  have h : unmarshalCondition (marshalVal
      (.vboolop .regexpLikeOp "name" "" (.vstr "^a"))) =
      .ok (.vboolop .eqOp "name" "" (.vstr "^a")) := by
    simp [marshalVal, boolOpToString, optStrField, unmarshalCondition,
      unmarshalConditionObj, hasKey, lookupKey, boolOpFromJson, getStrField,
      stringToBoolOp, decodeRawValue, unmarshalValue, unmarshalExpression,
      unmarshalExpressionObj, caseTrigger, simpleDecode,
      bind, Except.bind, pure, Except.pure]
  refine ⟨h, ?_⟩
  rw [h]
  simp

end SuperSaiyan
